import Mathlib

/-!
Verification of the gate-synthesis utilities in `cirq/circuits/util.py`.

The Python module works with 2x2 complex matrices over IEEE floats; here the
arithmetic is embedded over the exact real and complex numbers.  Python's `%`
with the positive modulus `1` is true mathematical modulo, hence `Int.fract`;
`cmath.phase` is the principal argument `Complex.arg` (range `(-π, π]`, zero at
the origin); `math.atan2 y x` is the principal argument of `x + y*I`.

The gate value classes (`ops.XYGate`, `ops.ZGate`, …), the eigendecomposition
`np.linalg.eig` and the KAK decomposition `linalg.kak_decomposition` are
collaborators that are not part of the source file; they are modelled from the
spec where needed and marked as such in their doc comments.
-/

open ComplexConjugate

noncomputable section

/-- Formalization of `_signed_mod_1` from util.py: `(x + 0.5) % 1 - 0.5`, with the
Python float modulo `% 1` rendered as `Int.fract`. -/
def signed_mod_1 (x : ℝ) : ℝ := Int.fract (x + 1/2) - 1/2

/-- Formalization of `is_negligible_turn` from util.py. -/
def is_negligible_turn (turns tolerance : ℝ) : Prop := |signed_mod_1 turns| < tolerance

/-- The unit complex number `e^{iθ}` for a real `θ`, i.e. `np.exp(1j*angle)`. -/
def expI (θ : ℝ) : ℂ := Complex.exp ((θ : ℂ) * Complex.I)

/-- Two-by-two complex matrices, the type of single-qubit operations. -/
abbrev Mat2 := Matrix (Fin 2) (Fin 2) ℂ

/-- Formalization of `_phase_matrix` from util.py: `np.diag([1, np.exp(1j*angle)])`. -/
def phase_matrix (angle : ℝ) : Mat2 := !![1, 0; 0, expI angle]

/-- Formalization of `_rotation_matrix` from util.py: `[[c, -s], [s, c]]`. -/
def rotation_matrix (angle : ℝ) : Mat2 :=
  !![(Real.cos angle : ℂ), -(Real.sin angle : ℂ);
     (Real.sin angle : ℂ), (Real.cos angle : ℂ)]

/-- Formalization of `math.atan2 y x` as the principal argument of `x + y*I`; both
have range `(-π, π]` and both send the origin to `0`. -/
def atan2 (y x : ℝ) : ℝ := Complex.arg ((x : ℂ) + (y : ℂ) * Complex.I)

/-- Formalization of `_deconstruct_single_qubit_matrix_into_angles` from util.py,
returning `(right_phase + diagonal_phase, rotation, bottom_phase)`. -/
def deconstruct_single_qubit_matrix_into_angles (mat : Mat2) : ℝ × ℝ × ℝ :=
  let right_phase := Complex.arg (mat 0 1 * conj (mat 0 0)) + Real.pi
  let mat1 := mat * phase_matrix (-right_phase)
  let bottom_phase := Complex.arg (mat1 1 0 * conj (mat1 0 0))
  let mat2 := phase_matrix (-bottom_phase) * mat1
  let rotation := atan2 (Complex.abs (mat2 1 0)) (Complex.abs (mat2 0 0))
  let mat3 := rotation_matrix (-rotation) * mat2
  let diagonal_phase := Complex.arg (mat3 1 1 * conj (mat3 0 0))
  (right_phase + diagonal_phase, rotation, bottom_phase)

/-- Formalization of `_deconstruct_single_qubit_matrix_into_gate_turns` from util.py:
`(signed_mod_1 (2*rotation/tau), signed_mod_1 (0.25 - pre/tau),
signed_mod_1 ((post + pre)/tau))` with `tau = 2*pi`. -/
def deconstruct_single_qubit_matrix_into_gate_turns (mat : Mat2) : ℝ × ℝ × ℝ :=
  let angles := deconstruct_single_qubit_matrix_into_angles mat
  let tau := 2 * Real.pi
  (signed_mod_1 (2 * angles.2.1 / tau),
   signed_mod_1 (1/4 - angles.1 / tau),
   signed_mod_1 ((angles.2.2 + angles.1) / tau))

/-- The closed native gate vocabulary appearing in util.py: `ops.XYGate(turns=t,
axis_phase_turns=p)`, `ops.ZGate(t)`, and the powered gates `ops.CZ**e`,
`ops.X**e`, `ops.Y**e`, `ops.Z**e` used by the two-qubit and controlled-op
synthesizers. -/
inductive NativeGate : Type
  | XYGate (turns : ℝ) (axis_phase_turns : ℝ)
  | ZGate (turns : ℝ)
  | CZpow (e : ℝ)
  | Xpow (e : ℝ)
  | Ypow (e : ℝ)
  | Zpow (e : ℝ)

open NativeGate

/-- Modelled from the spec: the gate classes are not part of `src/`, and the spec
describes `trace_distance_bound()` only as "a nonnegative real upper bound on the
operator distance it introduces — used for tolerance filtering".  The repository's
own negligibility measure (`is_negligible_turn` in util.py) sizes a gate by
`|signed_mod_1 turns|`, so the bound is modelled as `π * |signed_mod_1 turns|`,
which is a genuine upper bound on the trace distance of a rotation or phase gate
by that fraction of a full turn, and which vanishes exactly on whole-turn
(identity) gates as the spec's identity-elision property requires. -/
def trace_distance_bound : NativeGate → ℝ
  | XYGate t _ => Real.pi * |signed_mod_1 t|
  | ZGate t => Real.pi * |signed_mod_1 t|
  | CZpow e => Real.pi * |signed_mod_1 e|
  | Xpow e => Real.pi * |signed_mod_1 e|
  | Ypow e => Real.pi * |signed_mod_1 e|
  | Zpow e => Real.pi * |signed_mod_1 e|

/-- Formalization of `single_qubit_matrix_to_native_gates` from util.py: build the
candidate list `[XYGate(xy_turn, xy_phase_turn), ZGate(total_z_turn)]`, keep only
gates with `trace_distance_bound() > tolerance`, and if both survive and
`abs(xy_turn) >= 0.5 - tolerance` replace the result with the single half-turn
gate `XYGate(0.5, xy_phase_turn + total_z_turn/2)`. -/
def single_qubit_matrix_to_native_gates (mat : Mat2) (tolerance : ℝ) : List NativeGate :=
  let turns := deconstruct_single_qubit_matrix_into_gate_turns mat
  let xy_turn := turns.1
  let xy_phase_turn := turns.2.1
  let total_z_turn := turns.2.2
  let result := [XYGate xy_turn xy_phase_turn, ZGate total_z_turn]
  let result := result.filter fun g => decide (tolerance < trace_distance_bound g)
  if result.length = 2 ∧ 1/2 - tolerance ≤ |xy_turn| then
    [XYGate (1/2) (xy_phase_turn + total_z_turn / 2)]
  else
    result

/-- Modelled from the spec: the gate classes are not in `src/`.  The spec describes
`AxisRotationGate(turns, axis_phase_turns)` as "a continuous rotation-around-an-axis
gate" whose axis phase selects an axis in the XY plane; this is the standard
rotation by `2π·turns` radians about the axis at angle `2π·axis_phase_turns` in
the XY plane. -/
def XYmat (t p : ℝ) : Mat2 :=
  !![(Real.cos (Real.pi * t) : ℂ),
     -(Complex.I * (Real.sin (Real.pi * t) : ℂ) * expI (-(2 * Real.pi * p)));
     -(Complex.I * (Real.sin (Real.pi * t) : ℂ) * expI (2 * Real.pi * p)),
     (Real.cos (Real.pi * t) : ℂ)]

/-- Modelled from the spec: `PhaseGate(turns)` is the Z-axis phase
`diag(1, e^{2πi·turns})`. -/
def Zmat (t : ℝ) : Mat2 := !![1, 0; 0, expI (2 * Real.pi * t)]

/-- Modelled from the spec: the single-qubit matrix of each native gate.  `Xpow e`
and `Ypow e` are axis rotations with axis phase `0` and `1/4`; `Zpow e` is the
phase gate by `e` half-turns; the two-qubit coupling gate `CZpow` has no
single-qubit matrix and is unused here (placeholder identity). -/
def gate_matrix : NativeGate → Mat2
  | XYGate t p => XYmat t p
  | ZGate t => Zmat t
  | CZpow _ => 1
  | Xpow e => XYmat e 0
  | Ypow e => XYmat e (1/4)
  | Zpow e => Zmat (e / 2)

/-- The total matrix of a gate list applied first-to-last: later gates multiply on
the left. -/
def gates_matrix : List NativeGate → Mat2
  | [] => 1
  | g :: rest => gates_matrix rest * gate_matrix g

/-- A qubit-bound native gate: the final output vocabulary of the two top-level
synthesizers (`gate(q)` or `gate(q0, q1)` in the source). -/
inductive Operation (Q : Type) : Type
  | app1 (gate : NativeGate) (q : Q)
  | app2 (gate : NativeGate) (q0 q1 : Q)

/-- Modelled from the spec: the inverse of a gate with parameter `p` is the gate
with parameter `-p` (spec 4.5 step 4). -/
def gate_inverse : NativeGate → NativeGate
  | XYGate t p => XYGate (-t) p
  | ZGate t => ZGate (-t)
  | CZpow e => CZpow (-e)
  | Xpow e => Xpow (-e)
  | Ypow e => Ypow (-e)
  | Zpow e => Zpow (-e)

/-- The inverse of a bound operation inverts its gate on the same qubits. -/
def op_inverse {Q : Type} : Operation Q → Operation Q
  | Operation.app1 g q => Operation.app1 (gate_inverse g) q
  | Operation.app2 g q0 q1 => Operation.app2 (gate_inverse g) q0 q1

/-- Modelled from the spec: `ops.inverse_of_invertable_op_tree` (not in `src/`) is
the exact operation-by-operation inverse, in reverse order (spec 4.5 step 4). -/
def inverse_of_invertable_op_tree {Q : Type} (l : List (Operation Q)) : List (Operation Q) :=
  (l.map op_inverse).reverse

/-- Signature of the eigendecomposition collaborator `np.linalg.eig` (spec section 6):
an ordered pair of eigenvalues together with the eigenvector matrix. -/
def EigFn : Type := Mat2 → (ℂ × ℂ) × Mat2

/-- Formalization of `single_qubit_op_to_framed_phase_form` from util.py, parametric
in the external eigendecomposition: `u = vecs.H`, `r = vals[1]/vals[0]`,
`g = vals[0]`. -/
def single_qubit_op_to_framed_phase_form (eig : EigFn) (mat : Mat2) : Mat2 × ℂ × ℂ :=
  let vals := (eig mat).1
  let vecs := (eig mat).2
  (vecs.conjTranspose, vals.2 / vals.1, vals.1)

/-- The trailing-gate removal step of `controlled_op_to_native_gates`:
`if u_gates and isinstance(u_gates[-1], ops.ZGate): del u_gates[-1]`. -/
def drop_trailing_z (l : List NativeGate) : List NativeGate :=
  match l.getLast? with
  | some (ZGate _) => l.dropLast
  | _ => l

/-- Formalization of `controlled_op_to_native_gates` from util.py: decompose into
framed phase form; return `[]` when `|z_phase - 1| <= tolerance`; otherwise emit the
border gates on the target (trailing `ZGate` removed), the `CZ` effect, the
conditional kickback on the control, and the inverted border gates. -/
def controlled_op_to_native_gates {Q : Type} (eig : EigFn) (control target : Q)
    (operation : Mat2) (tolerance : ℝ) : List (Operation Q) :=
  let f := single_qubit_op_to_framed_phase_form eig operation
  let u := f.1
  let z_phase := f.2.1
  let global_phase := f.2.2
  if Complex.abs (z_phase - 1) ≤ tolerance then [] else
    let u_gates := drop_trailing_z (single_qubit_matrix_to_native_gates u tolerance)
    let ops_before := u_gates.map fun g => Operation.app1 g target
    let ops_after := inverse_of_invertable_op_tree ops_before
    let effect := Operation.app2 (CZpow (Complex.arg z_phase / Real.pi)) control target
    let kickback := Operation.app1 (Zpow (Complex.arg global_phase / Real.pi)) control
    ops_before ++ [effect] ++
      (if tolerance < Complex.abs (global_phase - 1) then [kickback] else []) ++ ops_after

/-- The output of the external `linalg.kak_decomposition` collaborator (spec
section 6) with the ignored global phase omitted: post-rotations `(a1, a0)`,
interaction coordinates `(x, y, z)`, pre-rotations `(b1, b0)`. -/
structure KakDecomposition : Type where
  a1 : Mat2
  a0 : Mat2
  x : ℝ
  y : ℝ
  z : ℝ
  b1 : Mat2
  b0 : Mat2

/-- The inner `parity_interaction` generator of `two_qubit_matrix_to_native_gates`:
nothing when `|rads| < tolerance`; otherwise with `e = rads*4/pi` and `h = -e/2`,
the framing op on both qubits (if given), `CZ**e` on `(q0, q1)`, `Z**h` on each
qubit, and the framing op's inverse on both qubits (if given). -/
def parity_interaction {Q : Type} (q0 q1 : Q) (tolerance rads : ℝ)
    (op : Option NativeGate) : List (Operation Q) :=
  if |rads| < tolerance then [] else
    let e := rads * 4 / Real.pi
    let h := -e / 2
    (match op with
     | some g => [Operation.app1 g q0, Operation.app1 g q1]
     | none => []) ++
    [Operation.app2 (CZpow e) q0 q1, Operation.app1 (Zpow h) q0, Operation.app1 (Zpow h) q1] ++
    (match op with
     | some g => [Operation.app1 (gate_inverse g) q0, Operation.app1 (gate_inverse g) q1]
     | none => [])

/-- The inner `do_single_on` generator: the native gates of `u`, each bound to `q`. -/
def do_single_on {Q : Type} (u : Mat2) (q : Q) (tolerance : ℝ) : List (Operation Q) :=
  (single_qubit_matrix_to_native_gates u tolerance).map fun g => Operation.app1 g q

/-- Formalization of `two_qubit_matrix_to_native_gates` from util.py, parametric in
the result of the external KAK decomposition of the input matrix. -/
def two_qubit_matrix_to_native_gates {Q : Type} (q0 q1 : Q) (kak : KakDecomposition)
    (tolerance : ℝ) : List (Operation Q) :=
  let pre := do_single_on kak.b1 q1 tolerance ++ do_single_on kak.b0 q0 tolerance
  let post := do_single_on kak.a1 q1 tolerance ++ do_single_on kak.a0 q0 tolerance
  let xx_part := parity_interaction q0 q1 tolerance kak.x (some (Ypow (-(1/2))))
  let yy_part := parity_interaction q0 q1 tolerance kak.y (some (Xpow (1/2)))
  let zz_part := parity_interaction q0 q1 tolerance kak.z none
  pre ++ xx_part ++ yy_part ++ zz_part ++ post

/-- The parity interaction exactly as claim C2 words it: nothing when
`|rads| < tolerance`; otherwise the framing gate on both qubits (if given), `CZ`
raised to the power `4*rads/pi` on `(q0, q1)`, `Z` raised to the power
`-2*rads/pi` on `q0` and on `q1` individually, then the framing gate's inverse on
both qubits (if given). -/
def parity_interaction_described {Q : Type} (q0 q1 : Q) (tolerance rads : ℝ)
    (framing : Option NativeGate) : List (Operation Q) :=
  if |rads| < tolerance then [] else
    (match framing with
     | some g => [Operation.app1 g q0, Operation.app1 g q1]
     | none => []) ++
    [Operation.app2 (CZpow (4 * rads / Real.pi)) q0 q1,
     Operation.app1 (Zpow (-2 * rads / Real.pi)) q0,
     Operation.app1 (Zpow (-2 * rads / Real.pi)) q1] ++
    (match framing with
     | some g => [Operation.app1 (gate_inverse g) q0, Operation.app1 (gate_inverse g) q1]
     | none => [])

/-- The two-qubit output exactly as claim C2 words it: the flattened concatenation,
in order, of pre (synthesis of `b1` on `q1` then `b0` on `q0`), the x interaction
framed by `Y^-0.5`, the y interaction framed by `X^0.5`, the z interaction with no
framing, then post (synthesis of `a1` on `q1` then `a0` on `q0`). -/
def two_qubit_described {Q : Type} (q0 q1 : Q) (kak : KakDecomposition)
    (tolerance : ℝ) : List (Operation Q) :=
  ((single_qubit_matrix_to_native_gates kak.b1 tolerance).map fun g => Operation.app1 g q1) ++
  ((single_qubit_matrix_to_native_gates kak.b0 tolerance).map fun g => Operation.app1 g q0) ++
  parity_interaction_described q0 q1 tolerance kak.x (some (Ypow (-(1/2)))) ++
  parity_interaction_described q0 q1 tolerance kak.y (some (Xpow (1/2))) ++
  parity_interaction_described q0 q1 tolerance kak.z none ++
  ((single_qubit_matrix_to_native_gates kak.a1 tolerance).map fun g => Operation.app1 g q1) ++
  ((single_qubit_matrix_to_native_gates kak.a0 tolerance).map fun g => Operation.app1 g q0)

/-- Removal of a trailing phase gate exactly as claim C3 words it: the border gate
list with a trailing `ZGate` dropped when it is last. -/
def drop_trailing_z_described (l : List NativeGate) : List NativeGate :=
  match l.reverse with
  | ZGate _ :: rest => rest.reverse
  | _ => l

/-- The controlled-op output exactly as claim C3 words it: border gates for `u` on
the target with a trailing phase gate dropped, then `CZ` to the power
`phase(z_phase)/pi` on `(control, target)`, then — only when
`|global_phase - 1| > tolerance` — `Z` to the power `phase(global_phase)/pi` on
the control, then the operation-by-operation inverse of the border operations in
reverse order. -/
def controlled_op_described {Q : Type} (eig : EigFn) (control target : Q)
    (operation : Mat2) (tolerance : ℝ) : List (Operation Q) :=
  let f := single_qubit_op_to_framed_phase_form eig operation
  let border :=
    (drop_trailing_z_described (single_qubit_matrix_to_native_gates f.1 tolerance)).map
      fun g => Operation.app1 g target
  border ++
    [Operation.app2 (CZpow (Complex.arg f.2.1 / Real.pi)) control target] ++
    (if tolerance < Complex.abs (f.2.2 - 1) then
      [Operation.app1 (Zpow (Complex.arg f.2.2 / Real.pi)) control]
    else []) ++
    (border.map op_inverse).reverse

/-! Algebraic toolkit for `expI`. -/

theorem expI_add (x y : ℝ) : expI (x + y) = expI x * expI y := by
  unfold expI
  push_cast
  rw [add_mul, Complex.exp_add]

theorem expI_zero : expI 0 = 1 := by simp [expI]

theorem abs_expI (x : ℝ) : Complex.abs (expI x) = 1 := Complex.abs_exp_ofReal_mul_I x

theorem expI_ne_zero (x : ℝ) : expI x ≠ 0 := by
  intro h
  have h1 := abs_expI x
  rw [h] at h1
  simp at h1

theorem expI_mul_expI_neg (x : ℝ) : expI x * expI (-x) = 1 := by
  rw [← expI_add]
  have h : x + -x = 0 := by ring
  rw [h, expI_zero]

theorem conj_expI (x : ℝ) : conj (expI x) = expI (-x) := by
  unfold expI
  rw [← Complex.exp_conj]
  push_cast
  simp [Complex.conj_I]

theorem expI_pi : expI Real.pi = -1 := Complex.exp_pi_mul_I

theorem expI_neg_pi : expI (-Real.pi) = -1 := by
  have h := expI_mul_expI_neg Real.pi
  rw [expI_pi] at h
  linear_combination -h

theorem expI_pi_div_two : expI (Real.pi / 2) = Complex.I := by
  unfold expI
  rw [Complex.exp_mul_I, ← Complex.ofReal_cos, ← Complex.ofReal_sin,
    Real.cos_pi_div_two, Real.sin_pi_div_two]
  simp

theorem expI_neg_pi_div_two : expI (-(Real.pi / 2)) = -Complex.I := by
  have h := expI_mul_expI_neg (Real.pi / 2)
  rw [expI_pi_div_two] at h
  have h2 : (-Complex.I) * (Complex.I * expI (-(Real.pi / 2))) = -Complex.I := by
    rw [h, mul_one]
  rw [← mul_assoc, show (-Complex.I) * Complex.I = 1 from by
    rw [neg_mul, Complex.I_mul_I, neg_neg], one_mul] at h2
  exact h2

theorem expI_arg {w : ℂ} (hw : w ≠ 0) : expI (Complex.arg w) = w / Complex.abs w := by
  have h := Complex.abs_mul_exp_arg_mul_I w
  have habs : (Complex.abs w : ℂ) ≠ 0 := by simpa using hw
  rw [eq_div_iff habs, mul_comm]
  exact h

theorem expI_int_two_pi (k : ℤ) : expI ((k : ℝ) * (2 * Real.pi)) = 1 := by
  unfold expI
  push_cast
  rw [show ((k : ℂ) * (2 * (Real.pi : ℂ))) * Complex.I
      = (k : ℂ) * (2 * (Real.pi : ℂ) * Complex.I) by ring]
  exact Complex.exp_int_mul_two_pi_mul_I k

theorem expI_add_int_two_pi (x : ℝ) (k : ℤ) : expI (x + (k : ℝ) * (2 * Real.pi)) = expI x := by
  rw [expI_add, expI_int_two_pi, mul_one]

/-! Entrywise toolkit for two-by-two matrix products. -/

theorem mat2_mul_ent (a b c d e f g h : ℂ) :
    !![a, b; c, d] * !![e, f; g, h] =
      !![a * e + b * g, a * f + b * h; c * e + d * g, c * f + d * h] := by
  ext i j
  fin_cases i <;> fin_cases j <;> simp [Matrix.mul_apply, Fin.sum_univ_two]

theorem mul_phase_matrix (M : Mat2) (θ : ℝ) :
    M * phase_matrix θ = !![M 0 0, M 0 1 * expI θ; M 1 0, M 1 1 * expI θ] := by
  ext i j
  fin_cases i <;> fin_cases j <;>
    simp [phase_matrix, Matrix.mul_apply, Fin.sum_univ_two]

theorem phase_matrix_mul (M : Mat2) (θ : ℝ) :
    phase_matrix θ * M = !![M 0 0, M 0 1; expI θ * M 1 0, expI θ * M 1 1] := by
  ext i j
  fin_cases i <;> fin_cases j <;>
    simp [phase_matrix, Matrix.mul_apply, Fin.sum_univ_two]

theorem rotation_matrix_mul (M : Mat2) (θ : ℝ) :
    rotation_matrix θ * M =
      !![(Real.cos θ : ℂ) * M 0 0 - (Real.sin θ : ℂ) * M 1 0,
         (Real.cos θ : ℂ) * M 0 1 - (Real.sin θ : ℂ) * M 1 1;
         (Real.sin θ : ℂ) * M 0 0 + (Real.cos θ : ℂ) * M 1 0,
         (Real.sin θ : ℂ) * M 0 1 + (Real.cos θ : ℂ) * M 1 1] := by
  ext i j
  fin_cases i <;> fin_cases j <;>
    simp [rotation_matrix, Matrix.mul_apply, Fin.sum_univ_two] <;> ring

theorem phase_matrix_add (x y : ℝ) :
    phase_matrix x * phase_matrix y = phase_matrix (x + y) := by
  ext i j
  fin_cases i <;> fin_cases j <;>
    simp [phase_matrix, Matrix.mul_apply, Fin.sum_univ_two, expI_add]

theorem rotation_matrix_add (x y : ℝ) :
    rotation_matrix x * rotation_matrix y = rotation_matrix (x + y) := by
  ext i j
  fin_cases i <;> fin_cases j <;>
    simp [rotation_matrix, Matrix.mul_apply, Fin.sum_univ_two,
      Real.cos_add, Real.sin_add] <;>
    push_cast <;> ring

theorem phase_matrix_zero : phase_matrix 0 = 1 := by
  ext i j
  fin_cases i <;> fin_cases j <;> simp [phase_matrix, expI_zero, Matrix.one_apply]

theorem rotation_matrix_zero : rotation_matrix 0 = 1 := by
  ext i j
  fin_cases i <;> fin_cases j <;> simp [rotation_matrix, Matrix.one_apply]

theorem phase_matrix_conjTranspose (θ : ℝ) :
    (phase_matrix θ).conjTranspose = phase_matrix (-θ) := by
  ext i j
  fin_cases i <;> fin_cases j <;>
    simp [phase_matrix, Matrix.conjTranspose_apply, conj_expI]

theorem rotation_matrix_conjTranspose (θ : ℝ) :
    (rotation_matrix θ).conjTranspose = rotation_matrix (-θ) := by
  ext i j
  fin_cases i <;> fin_cases j <;>
    simp [rotation_matrix, Matrix.conjTranspose_apply, Real.cos_neg, Real.sin_neg] <;>
    first
      | rw [← Complex.cos_conj, Complex.conj_ofReal]
      | rw [← Complex.sin_conj, Complex.conj_ofReal]

theorem mat2_unitary_mul {A B : Mat2} (hA : A.conjTranspose * A = 1)
    (hB : B.conjTranspose * B = 1) :
    (A * B).conjTranspose * (A * B) = 1 := by
  rw [Matrix.conjTranspose_mul, Matrix.mul_assoc, ← Matrix.mul_assoc A.conjTranspose A B,
    hA, Matrix.one_mul, hB]

theorem phase_matrix_unitary (θ : ℝ) :
    (phase_matrix θ).conjTranspose * phase_matrix θ = 1 := by
  rw [phase_matrix_conjTranspose, phase_matrix_add]
  have h : -θ + θ = 0 := by ring
  rw [h, phase_matrix_zero]

theorem rotation_matrix_unitary (θ : ℝ) :
    (rotation_matrix θ).conjTranspose * rotation_matrix θ = 1 := by
  rw [rotation_matrix_conjTranspose, rotation_matrix_add]
  have h : -θ + θ = 0 := by ring
  rw [h, rotation_matrix_zero]

theorem conj_mul_self (z : ℂ) : conj z * z = ((Complex.abs z ^ 2 : ℝ) : ℂ) := by
  rw [mul_comm, Complex.mul_conj, Complex.normSq_eq_abs]

theorem sq_one_of_nonneg {r : ℝ} (h : r ^ 2 = 1) (h0 : 0 ≤ r) : r = 1 := by
  nlinarith

theorem unitary_first_column {M : Mat2} (h : M.conjTranspose * M = 1) :
    Complex.abs (M 0 0) ^ 2 + Complex.abs (M 1 0) ^ 2 = 1 := by
  have h00 := congrFun (congrFun h 0) 0
  rw [Matrix.mul_apply, Fin.sum_univ_two] at h00
  simp only [Matrix.conjTranspose_apply, Matrix.one_apply_eq,
    congrFun Complex.star_def] at h00
  rw [conj_mul_self, conj_mul_self] at h00
  exact_mod_cast h00

theorem unitary_lower_zero_diag {U : Mat2} (h : U.conjTranspose * U = 1)
    (h10 : U 1 0 = 0) :
    Complex.abs (U 0 0) = 1 ∧ U 0 1 = 0 ∧ Complex.abs (U 1 1) = 1 := by
  have h00 : Complex.abs (U 0 0) = 1 := by
    have hc := unitary_first_column h
    rw [h10] at hc
    simp only [map_zero] at hc
    have hz : (0 : ℝ) ^ 2 = 0 := by norm_num
    have hc2 : Complex.abs (U 0 0) ^ 2 = 1 := by linarith
    exact sq_one_of_nonneg hc2 (Complex.abs.nonneg _)
  have hne : conj (U 0 0) ≠ 0 := by
    simp only [ne_eq, map_eq_zero]
    intro hz
    rw [hz] at h00
    simp at h00
  have h01 : U 0 1 = 0 := by
    have he := congrFun (congrFun h 0) 1
    rw [Matrix.mul_apply, Fin.sum_univ_two] at he
    simp only [Matrix.conjTranspose_apply, congrFun Complex.star_def] at he
    rw [h10, Matrix.one_apply_ne (by decide)] at he
    simp only [map_zero, zero_mul, add_zero] at he
    rcases mul_eq_zero.mp he with he2 | he2
    · exact absurd he2 hne
    · exact he2
  have h11 : Complex.abs (U 1 1) = 1 := by
    have he := congrFun (congrFun h 1) 1
    rw [Matrix.mul_apply, Fin.sum_univ_two] at he
    simp only [Matrix.conjTranspose_apply, Matrix.one_apply_eq,
      congrFun Complex.star_def] at he
    rw [h01] at he
    simp only [map_zero, zero_mul, zero_add] at he
    rw [conj_mul_self] at he
    have hsq : Complex.abs (U 1 1) ^ 2 = 1 := by exact_mod_cast he
    exact sq_one_of_nonneg hsq (Complex.abs.nonneg _)
  exact ⟨h00, h01, h11⟩

theorem gates_matrix_nil : gates_matrix [] = 1 := rfl

theorem gates_matrix_singleton (g : NativeGate) : gates_matrix [g] = gate_matrix g := by
  simp [gates_matrix]

theorem gates_matrix_pair (g1 g2 : NativeGate) :
    gates_matrix [g1, g2] = gate_matrix g2 * gate_matrix g1 := by
  simp [gates_matrix]

theorem mul_phase_apply_00 (M : Mat2) (θ : ℝ) : (M * phase_matrix θ) 0 0 = M 0 0 := by
  rw [mul_phase_matrix]
  simp

theorem mul_phase_apply_10 (M : Mat2) (θ : ℝ) : (M * phase_matrix θ) 1 0 = M 1 0 := by
  rw [mul_phase_matrix]
  simp

theorem phase_mul_apply_00 (M : Mat2) (θ : ℝ) : (phase_matrix θ * M) 0 0 = M 0 0 := by
  rw [phase_matrix_mul]
  simp

theorem phase_mul_apply_10 (M : Mat2) (θ : ℝ) :
    (phase_matrix θ * M) 1 0 = expI θ * M 1 0 := by
  rw [phase_matrix_mul]
  simp

theorem abs_expI_mul (θ : ℝ) (z : ℂ) : Complex.abs (expI θ * z) = Complex.abs z := by
  rw [map_mul, abs_expI, one_mul]

theorem phase_matrix_apply_00 (θ : ℝ) : phase_matrix θ 0 0 = 1 := by
  simp [phase_matrix]

theorem phase_matrix_apply_01 (θ : ℝ) : phase_matrix θ 0 1 = 0 := by
  simp [phase_matrix]

theorem phase_matrix_apply_10 (θ : ℝ) : phase_matrix θ 1 0 = 0 := by
  simp [phase_matrix]

theorem phase_matrix_apply_11 (θ : ℝ) : phase_matrix θ 1 1 = expI θ := by
  simp [phase_matrix]

/-- The fully phase- and rotation-corrected matrix reached at the last step of the
angle deconstruction, with the intermediate phases expressed directly through the
entries of the input. -/
def mat3_of (mat : Mat2) : Mat2 :=
  rotation_matrix (-(atan2 (Complex.abs (mat 1 0)) (Complex.abs (mat 0 0)))) *
    (phase_matrix (-(Complex.arg (mat 1 0 * conj (mat 0 0)))) *
      (mat * phase_matrix (-(Complex.arg (mat 0 1 * conj (mat 0 0)) + Real.pi))))

/-- Unfolded form of the angle deconstruction: the bottom phase and the rotation
depend only on the entries of the original matrix, and the final matrix is the
triple product `mat3_of mat`. -/
theorem deconstruct_angles_unfold (mat : Mat2) :
    deconstruct_single_qubit_matrix_into_angles mat =
      (Complex.arg (mat 0 1 * conj (mat 0 0)) + Real.pi +
         Complex.arg (mat3_of mat 1 1 * conj (mat3_of mat 0 0)),
       atan2 (Complex.abs (mat 1 0)) (Complex.abs (mat 0 0)),
       Complex.arg (mat 1 0 * conj (mat 0 0))) := by
  unfold deconstruct_single_qubit_matrix_into_angles mat3_of
  simp only [mul_phase_apply_00, mul_phase_apply_10, phase_mul_apply_00, phase_mul_apply_10,
    abs_expI_mul]

theorem atan2_pos_zero {r : ℝ} (hr : 0 < r) : atan2 r 0 = Real.pi / 2 := by
  unfold atan2
  rw [Complex.ofReal_zero, zero_add, Complex.arg_real_mul _ hr, Complex.arg_I]

theorem atan2_zero_nonneg {r : ℝ} (hr : 0 ≤ r) : atan2 0 r = 0 := by
  unfold atan2
  rw [Complex.ofReal_zero, zero_mul, add_zero, Complex.arg_ofReal_of_nonneg hr]

/-- Evaluation of the angle deconstruction on an anti-diagonal matrix: the result is
`(π + arg(b·conj c), π/2, 0)`. -/
theorem deconstruct_angles_antidiag (b c : ℂ) (hc : c ≠ 0) :
    deconstruct_single_qubit_matrix_into_angles !![0, b; c, 0] =
      (Real.pi + Complex.arg (b * conj c), Real.pi / 2, 0) := by
  have e00 : (!![(0 : ℂ), b; c, 0]) 0 0 = 0 := by simp
  have e01 : (!![(0 : ℂ), b; c, 0]) 0 1 = b := by simp
  have e10 : (!![(0 : ℂ), b; c, 0]) 1 0 = c := by simp
  have habs0 : Complex.abs ((!![(0 : ℂ), b; c, 0]) 0 0) = 0 := by rw [e00, map_zero]
  have habsc : Complex.abs ((!![(0 : ℂ), b; c, 0]) 1 0) = Complex.abs c := by rw [e10]
  have hrotval : atan2 (Complex.abs ((!![(0 : ℂ), b; c, 0]) 1 0))
      (Complex.abs ((!![(0 : ℂ), b; c, 0]) 0 0)) = Real.pi / 2 := by
    rw [habs0, habsc, atan2_pos_zero (Complex.abs.pos hc)]
  have hargr : Complex.arg ((!![(0 : ℂ), b; c, 0]) 0 1 * conj ((!![(0 : ℂ), b; c, 0]) 0 0)) =
      0 := by
    rw [e00, e01, map_zero, mul_zero, Complex.arg_zero]
  have hargb : Complex.arg ((!![(0 : ℂ), b; c, 0]) 1 0 * conj ((!![(0 : ℂ), b; c, 0]) 0 0)) =
      0 := by
    rw [e00, e10, map_zero, mul_zero, Complex.arg_zero]
  have hphase : (!![(0 : ℂ), b; c, 0] : Mat2) * phase_matrix (-(0 + Real.pi)) =
      !![0, -b; c, 0] := by
    rw [zero_add, mul_phase_matrix]
    ext i j
    fin_cases i <;> fin_cases j <;> simp [expI_neg_pi]
  have hphase0 : phase_matrix (-(0 : ℝ)) * (!![(0 : ℂ), -b; c, 0] : Mat2) =
      !![(0 : ℂ), -b; c, 0] := by
    rw [neg_zero, phase_matrix_zero, Matrix.one_mul]
  have hrot : rotation_matrix (-(Real.pi / 2)) * (!![(0 : ℂ), -b; c, 0] : Mat2) =
      !![c, 0; 0, b] := by
    rw [rotation_matrix_mul]
    ext i j
    fin_cases i <;> fin_cases j <;>
      simp [Real.cos_neg, Real.sin_neg, Real.cos_pi_div_two, Real.sin_pi_div_two]
  have hm3 : mat3_of !![(0 : ℂ), b; c, 0] = !![c, 0; 0, b] := by
    unfold mat3_of
    rw [hargr, hargb, hrotval, hphase, hphase0, hrot]
  rw [deconstruct_angles_unfold, hm3, hargr, hrotval]
  simp

/-- Evaluation of the angle deconstruction on a diagonal matrix: the result is
`(π + arg(-d·conj a), 0, 0)`. -/
theorem deconstruct_angles_diag (a d : ℂ) :
    deconstruct_single_qubit_matrix_into_angles !![a, 0; 0, d] =
      (Real.pi + Complex.arg (-d * conj a), 0, 0) := by
  have e00 : (!![a, (0 : ℂ); 0, d]) 0 0 = a := by simp
  have e01 : (!![a, (0 : ℂ); 0, d]) 0 1 = 0 := by simp
  have e10 : (!![a, (0 : ℂ); 0, d]) 1 0 = 0 := by simp
  have hrotval : atan2 (Complex.abs ((!![a, (0 : ℂ); 0, d]) 1 0))
      (Complex.abs ((!![a, (0 : ℂ); 0, d]) 0 0)) = 0 := by
    rw [e10, map_zero, atan2_zero_nonneg (Complex.abs.nonneg _)]
  have hargr : Complex.arg ((!![a, (0 : ℂ); 0, d]) 0 1 * conj ((!![a, (0 : ℂ); 0, d]) 0 0)) =
      0 := by
    rw [e01, zero_mul, Complex.arg_zero]
  have hargb : Complex.arg ((!![a, (0 : ℂ); 0, d]) 1 0 * conj ((!![a, (0 : ℂ); 0, d]) 0 0)) =
      0 := by
    rw [e10, zero_mul, Complex.arg_zero]
  have hphase : (!![a, (0 : ℂ); 0, d] : Mat2) * phase_matrix (-(0 + Real.pi)) =
      !![a, 0; 0, -d] := by
    rw [zero_add, mul_phase_matrix]
    ext i j
    fin_cases i <;> fin_cases j <;> simp [expI_neg_pi]
  have hphase0 : phase_matrix (-(0 : ℝ)) * (!![a, (0 : ℂ); 0, -d] : Mat2) =
      !![a, (0 : ℂ); 0, -d] := by
    rw [neg_zero, phase_matrix_zero, Matrix.one_mul]
  have hrot : rotation_matrix (-(0 : ℝ)) * (!![a, (0 : ℂ); 0, -d] : Mat2) =
      !![a, (0 : ℂ); 0, -d] := by
    rw [neg_zero, rotation_matrix_zero, Matrix.one_mul]
  have hm3 : mat3_of !![a, (0 : ℂ); 0, d] = !![a, (0 : ℂ); 0, -d] := by
    unfold mat3_of
    rw [hargr, hargb, hrotval, hphase, hphase0, hrot]
  rw [deconstruct_angles_unfold, hm3, hargr, hrotval]
  simp

/-! Basic facts about `signed_mod_1`. -/

theorem signed_mod_1_lb (x : ℝ) : -(1/2) ≤ signed_mod_1 x := by
  have h := Int.fract_nonneg (x + 1/2)
  unfold signed_mod_1
  linarith

theorem signed_mod_1_ub (x : ℝ) : signed_mod_1 x < 1/2 := by
  have h := Int.fract_lt_one (x + 1/2)
  unfold signed_mod_1
  linarith

theorem signed_mod_1_eq_self {x : ℝ} (h1 : -(1/2) ≤ x) (h2 : x < 1/2) :
    signed_mod_1 x = x := by
  unfold signed_mod_1
  rw [Int.fract_eq_self.mpr ⟨by linarith, by linarith⟩]
  ring

theorem signed_mod_1_eq_sub_one {x : ℝ} (h1 : 1/2 ≤ x) (h2 : x < 3/2) :
    signed_mod_1 x = x - 1 := by
  unfold signed_mod_1
  have : Int.fract (x + 1/2) = Int.fract (x + 1/2 - 1) := (Int.fract_sub_one _).symm
  rw [this, Int.fract_eq_self.mpr ⟨by linarith, by linarith⟩]
  ring

theorem signed_mod_1_eq_add_one {x : ℝ} (h1 : -(3/2) ≤ x) (h2 : x < -(1/2)) :
    signed_mod_1 x = x + 1 := by
  unfold signed_mod_1
  have : Int.fract (x + 1/2) = Int.fract (x + 1/2 + 1) := (Int.fract_add_one _).symm
  rw [this, Int.fract_eq_self.mpr ⟨by linarith, by linarith⟩]
  ring

/-! Evaluation machinery for the single-qubit synthesizer. -/

theorem deconstruct_turns_eq (mat : Mat2) (pre rot post : ℝ)
    (h : deconstruct_single_qubit_matrix_into_angles mat = (pre, rot, post)) :
    deconstruct_single_qubit_matrix_into_gate_turns mat =
      (signed_mod_1 (2 * rot / (2 * Real.pi)),
       signed_mod_1 (1/4 - pre / (2 * Real.pi)),
       signed_mod_1 ((post + pre) / (2 * Real.pi))) := by
  unfold deconstruct_single_qubit_matrix_into_gate_turns
  rw [h]

theorem single_qubit_eval (mat : Mat2) (tol xt xp zt : ℝ)
    (h : deconstruct_single_qubit_matrix_into_gate_turns mat = (xt, xp, zt)) :
    single_qubit_matrix_to_native_gates mat tol =
      if ([XYGate xt xp, ZGate zt].filter fun g =>
            decide (tol < trace_distance_bound g)).length = 2 ∧ 1/2 - tol ≤ |xt| then
        [XYGate (1/2) (xp + zt / 2)]
      else
        [XYGate xt xp, ZGate zt].filter fun g => decide (tol < trace_distance_bound g) := by
  unfold single_qubit_matrix_to_native_gates
  rw [h]

theorem tdb_XYGate (t p : ℝ) :
    trace_distance_bound (XYGate t p) = Real.pi * |signed_mod_1 t| := rfl

theorem tdb_ZGate (t : ℝ) :
    trace_distance_bound (ZGate t) = Real.pi * |signed_mod_1 t| := rfl

theorem single_qubit_case_absorb (mat : Mat2) (tol xt xp zt : ℝ)
    (h : deconstruct_single_qubit_matrix_into_gate_turns mat = (xt, xp, zt))
    (h1 : tol < trace_distance_bound (XYGate xt xp))
    (h2 : tol < trace_distance_bound (ZGate zt))
    (h3 : 1/2 - tol ≤ |xt|) :
    single_qubit_matrix_to_native_gates mat tol = [XYGate (1/2) (xp + zt / 2)] := by
  rw [single_qubit_eval mat tol xt xp zt h]
  have hf : ([XYGate xt xp, ZGate zt].filter fun g =>
      decide (tol < trace_distance_bound g)) = [XYGate xt xp, ZGate zt] := by
    simp [List.filter_cons, List.filter_nil, h1, h2]
  rw [hf]
  exact if_pos ⟨rfl, h3⟩

theorem single_qubit_case_both (mat : Mat2) (tol xt xp zt : ℝ)
    (h : deconstruct_single_qubit_matrix_into_gate_turns mat = (xt, xp, zt))
    (h1 : tol < trace_distance_bound (XYGate xt xp))
    (h2 : tol < trace_distance_bound (ZGate zt))
    (h3 : |xt| < 1/2 - tol) :
    single_qubit_matrix_to_native_gates mat tol = [XYGate xt xp, ZGate zt] := by
  rw [single_qubit_eval mat tol xt xp zt h]
  have hf : ([XYGate xt xp, ZGate zt].filter fun g =>
      decide (tol < trace_distance_bound g)) = [XYGate xt xp, ZGate zt] := by
    simp [List.filter_cons, List.filter_nil, h1, h2]
  rw [hf]
  exact if_neg fun hcon => absurd hcon.2 (not_le.mpr h3)

theorem single_qubit_case_drop_z (mat : Mat2) (tol xt xp zt : ℝ)
    (h : deconstruct_single_qubit_matrix_into_gate_turns mat = (xt, xp, zt))
    (h1 : tol < trace_distance_bound (XYGate xt xp))
    (h2 : trace_distance_bound (ZGate zt) ≤ tol) :
    single_qubit_matrix_to_native_gates mat tol = [XYGate xt xp] := by
  rw [single_qubit_eval mat tol xt xp zt h]
  have hf : ([XYGate xt xp, ZGate zt].filter fun g =>
      decide (tol < trace_distance_bound g)) = [XYGate xt xp] := by
    simp [List.filter_cons, List.filter_nil, h1, not_lt.mpr h2]
  rw [hf]
  exact if_neg fun hcon => by simp at hcon

theorem single_qubit_case_drop_xy (mat : Mat2) (tol xt xp zt : ℝ)
    (h : deconstruct_single_qubit_matrix_into_gate_turns mat = (xt, xp, zt))
    (h1 : trace_distance_bound (XYGate xt xp) ≤ tol)
    (h2 : tol < trace_distance_bound (ZGate zt)) :
    single_qubit_matrix_to_native_gates mat tol = [ZGate zt] := by
  rw [single_qubit_eval mat tol xt xp zt h]
  have hf : ([XYGate xt xp, ZGate zt].filter fun g =>
      decide (tol < trace_distance_bound g)) = [ZGate zt] := by
    simp [List.filter_cons, List.filter_nil, not_lt.mpr h1, h2]
  rw [hf]
  exact if_neg fun hcon => by simp at hcon

theorem single_qubit_case_drop_both (mat : Mat2) (tol xt xp zt : ℝ)
    (h : deconstruct_single_qubit_matrix_into_gate_turns mat = (xt, xp, zt))
    (h1 : trace_distance_bound (XYGate xt xp) ≤ tol)
    (h2 : trace_distance_bound (ZGate zt) ≤ tol) :
    single_qubit_matrix_to_native_gates mat tol = [] := by
  rw [single_qubit_eval mat tol xt xp zt h]
  have hf : ([XYGate xt xp, ZGate zt].filter fun g =>
      decide (tol < trace_distance_bound g)) = [] := by
    simp [List.filter_cons, List.filter_nil, not_lt.mpr h1, not_lt.mpr h2]
  rw [hf]
  exact if_neg fun hcon => by simp at hcon

/-! Concrete evaluations of `signed_mod_1`. -/

theorem smod_half : signed_mod_1 (1/2) = -(1/2) := by
  rw [signed_mod_1_eq_sub_one (by norm_num) (by norm_num)]
  norm_num

theorem smod_one : signed_mod_1 1 = 0 := by
  rw [signed_mod_1_eq_sub_one (by norm_num) (by norm_num)]
  norm_num

theorem smod_zero : signed_mod_1 0 = 0 := by
  rw [signed_mod_1_eq_self (by norm_num) (by norm_num)]

theorem smod_three_quarters : signed_mod_1 (3/4) = -(1/4) := by
  rw [signed_mod_1_eq_sub_one (by norm_num) (by norm_num)]
  norm_num

theorem smod_neg_three_quarters : signed_mod_1 (-(3/4)) = 1/4 := by
  rw [signed_mod_1_eq_add_one (by norm_num) (by norm_num)]
  norm_num

/-! Turn triples for the concrete matrices used below. -/

theorem turns_X :
    deconstruct_single_qubit_matrix_into_gate_turns !![(0 : ℂ), 1; 1, 0] =
      (-(1/2), -(1/4), -(1/2)) := by
  have h := deconstruct_angles_antidiag 1 1 one_ne_zero
  rw [map_one, mul_one, Complex.arg_one, add_zero] at h
  rw [deconstruct_turns_eq _ _ _ _ h]
  have hpi := Real.pi_ne_zero
  have d1 : 2 * (Real.pi / 2) / (2 * Real.pi) = 1/2 := by
    field_simp
    ring
  have d2 : (1 : ℝ)/4 - Real.pi / (2 * Real.pi) = -(1/4) := by
    rw [show Real.pi / (2 * Real.pi) = 1/2 from by field_simp; ring]
    norm_num
  have d3 : ((0 : ℝ) + Real.pi) / (2 * Real.pi) = 1/2 := by
    rw [zero_add]
    field_simp
    ring
  rw [d1, d2, d3, smod_half, signed_mod_1_eq_self (by norm_num) (by norm_num)]

theorem turns_XI :
    deconstruct_single_qubit_matrix_into_gate_turns !![(0 : ℂ), Complex.I; 1, 0] =
      (-(1/2), -(1/2), -(1/4)) := by
  have h := deconstruct_angles_antidiag Complex.I 1 one_ne_zero
  rw [map_one, mul_one, Complex.arg_I] at h
  rw [deconstruct_turns_eq _ _ _ _ h]
  have hpi := Real.pi_ne_zero
  have d1 : 2 * (Real.pi / 2) / (2 * Real.pi) = 1/2 := by
    field_simp
    ring
  have d2 : (1 : ℝ)/4 - (Real.pi + Real.pi / 2) / (2 * Real.pi) = -(1/2) := by
    rw [show (Real.pi + Real.pi / 2) / (2 * Real.pi) = 3/4 from by field_simp; ring]
    norm_num
  have d3 : ((0 : ℝ) + (Real.pi + Real.pi / 2)) / (2 * Real.pi) = 3/4 := by
    rw [zero_add]
    field_simp
    ring
  rw [d1, d2, d3, smod_half, smod_three_quarters,
    signed_mod_1_eq_self (by norm_num) (by norm_num)]

theorem turns_R :
    deconstruct_single_qubit_matrix_into_gate_turns !![(0 : ℂ), 1; -1, 0] =
      (-(1/2), 1/4, 0) := by
  have h := deconstruct_angles_antidiag 1 (-1) (by norm_num)
  simp only [map_neg, map_one, mul_neg, mul_one, Complex.arg_neg_one] at h
  rw [deconstruct_turns_eq _ _ _ _ h]
  have hpi := Real.pi_ne_zero
  have d1 : 2 * (Real.pi / 2) / (2 * Real.pi) = 1/2 := by
    field_simp
    ring
  have d2 : (1 : ℝ)/4 - (Real.pi + Real.pi) / (2 * Real.pi) = -(3/4) := by
    rw [show (Real.pi + Real.pi) / (2 * Real.pi) = 1 from by field_simp; ring]
    norm_num
  have d3 : ((0 : ℝ) + (Real.pi + Real.pi)) / (2 * Real.pi) = 1 := by
    rw [zero_add]
    field_simp
    ring
  rw [d1, d2, d3, smod_half, smod_neg_three_quarters, smod_one]

theorem turns_one :
    deconstruct_single_qubit_matrix_into_gate_turns (1 : Mat2) = (0, 1/4, 0) := by
  rw [Matrix.one_fin_two]
  have h := deconstruct_angles_diag 1 1
  simp only [map_one, mul_one] at h
  rw [show (-1 : ℂ).arg = Real.pi from Complex.arg_neg_one] at h
  rw [deconstruct_turns_eq _ _ _ _ h]
  have hpi := Real.pi_ne_zero
  have d1 : 2 * (0 : ℝ) / (2 * Real.pi) = 0 := by
    simp
  have d2 : (1 : ℝ)/4 - (Real.pi + Real.pi) / (2 * Real.pi) = -(3/4) := by
    rw [show (Real.pi + Real.pi) / (2 * Real.pi) = 1 from by field_simp; ring]
    norm_num
  have d3 : ((0 : ℝ) + (Real.pi + Real.pi)) / (2 * Real.pi) = 1 := by
    rw [zero_add]
    field_simp
    ring
  rw [d1, d2, d3, smod_zero, smod_neg_three_quarters, smod_one]

theorem turns_DI :
    deconstruct_single_qubit_matrix_into_gate_turns !![(1 : ℂ), 0; 0, Complex.I] =
      (0, 0, 1/4) := by
  have h := deconstruct_angles_diag 1 Complex.I
  simp only [map_one, mul_one] at h
  rw [show (-Complex.I).arg = -(Real.pi / 2) from Complex.arg_neg_I] at h
  rw [deconstruct_turns_eq _ _ _ _ h]
  have hpi := Real.pi_ne_zero
  have d1 : 2 * (0 : ℝ) / (2 * Real.pi) = 0 := by
    simp
  have d2 : (1 : ℝ)/4 - (Real.pi + -(Real.pi / 2)) / (2 * Real.pi) = 0 := by
    rw [show (Real.pi + -(Real.pi / 2)) / (2 * Real.pi) = 1/4 from by field_simp; ring]
    norm_num
  have d3 : ((0 : ℝ) + (Real.pi + -(Real.pi / 2))) / (2 * Real.pi) = 1/4 := by
    rw [zero_add]
    field_simp
    ring
  rw [d1, d2, d3, smod_zero, signed_mod_1_eq_self (by norm_num) (by norm_num)]

theorem tdb_XY_canonical (t p : ℝ) (h1 : -(1/2) ≤ t) (h2 : t < 1/2) :
    trace_distance_bound (XYGate t p) = Real.pi * |t| := by
  rw [tdb_XYGate, signed_mod_1_eq_self h1 h2]

theorem tdb_Z_canonical (t : ℝ) (h1 : -(1/2) ≤ t) (h2 : t < 1/2) :
    trace_distance_bound (ZGate t) = Real.pi * |t| := by
  rw [tdb_ZGate, signed_mod_1_eq_self h1 h2]

theorem turns_in_range (mat : Mat2) :
    -(1/2) ≤ (deconstruct_single_qubit_matrix_into_gate_turns mat).1 ∧
    (deconstruct_single_qubit_matrix_into_gate_turns mat).1 < 1/2 ∧
    -(1/2) ≤ (deconstruct_single_qubit_matrix_into_gate_turns mat).2.1 ∧
    (deconstruct_single_qubit_matrix_into_gate_turns mat).2.1 < 1/2 ∧
    -(1/2) ≤ (deconstruct_single_qubit_matrix_into_gate_turns mat).2.2 ∧
    (deconstruct_single_qubit_matrix_into_gate_turns mat).2.2 < 1/2 :=
  ⟨signed_mod_1_lb _, signed_mod_1_ub _, signed_mod_1_lb _, signed_mod_1_ub _,
   signed_mod_1_lb _, signed_mod_1_ub _⟩

/-- Synthesis of the identity matrix at tolerance zero: both candidate gates have
zero trace distance bound, fail the strict filter, and are elided. -/
theorem single_qubit_identity_tol_zero :
    single_qubit_matrix_to_native_gates (1 : Mat2) 0 = [] := by
  apply single_qubit_case_drop_both _ _ 0 (1/4) 0 turns_one
  · rw [tdb_XY_canonical _ _ (by norm_num) (by norm_num)]
    simp
  · rw [tdb_Z_canonical _ (by norm_num) (by norm_num)]
    simp

/-- A degenerate eigendecomposition collaborator instance (both eigenvalues `1`,
eigenvector matrix the identity), used for concrete evaluations. -/
def trivialEig : EigFn := fun _ => ((1, 1), 1)

/-- An eigendecomposition collaborator instance with eigenvalues `(1, -1)` and
eigenvector matrix the identity, used for concrete evaluations. -/
def flipEig : EigFn := fun _ => ((1, -1), 1)

/-! Gate matrix identities used by the reconstruction theorem. -/

theorem Zmat_zero : Zmat 0 = 1 := by
  unfold Zmat
  rw [show 2 * Real.pi * 0 = 0 by ring, expI_zero]
  ext i j
  fin_cases i <;> fin_cases j <;> simp [Matrix.one_apply]

theorem XYmat_zero_turn (p : ℝ) : XYmat 0 p = 1 := by
  unfold XYmat
  rw [show Real.pi * 0 = 0 by ring, Real.cos_zero, Real.sin_zero]
  ext i j
  fin_cases i <;> fin_cases j <;> simp [Matrix.one_apply]

theorem gate_matrix_XYGate (t p : ℝ) : gate_matrix (XYGate t p) = XYmat t p := rfl

theorem gate_matrix_ZGate (t : ℝ) : gate_matrix (ZGate t) = Zmat t := rfl

theorem rotation_mul_apply_10 (M : Mat2) (θ : ℝ) :
    (rotation_matrix θ * M) 1 0 =
      (Real.sin θ : ℂ) * M 0 0 + (Real.cos θ : ℂ) * M 1 0 := by
  rw [rotation_matrix_mul]
  simp

theorem smod_sub_int (x : ℝ) : ∃ k : ℤ, signed_mod_1 x = x - k := by
  refine ⟨⌊x + 1/2⌋, ?_⟩
  unfold signed_mod_1
  rw [← Int.self_sub_floor]
  ring

theorem abs_cos_int_pi (k : ℤ) : |Real.cos ((k : ℝ) * Real.pi)| = 1 := by
  have hs : Real.sin ((k : ℝ) * Real.pi) = 0 := Real.sin_int_mul_pi k
  have hsq := Real.sin_sq_add_cos_sq ((k : ℝ) * Real.pi)
  rw [hs] at hsq
  exact sq_one_of_nonneg (by rw [sq_abs]; nlinarith) (abs_nonneg _)

theorem Zmat_shift (t : ℝ) (k : ℤ) : Zmat (t - k) = Zmat t := by
  unfold Zmat
  rw [show 2 * Real.pi * (t - (k : ℝ)) = 2 * Real.pi * t + ((-k : ℤ) : ℝ) * (2 * Real.pi) by
    push_cast; ring, expI_add_int_two_pi]

theorem XYmat_shift_phase (t p : ℝ) (k : ℤ) : XYmat t (p - k) = XYmat t p := by
  unfold XYmat
  rw [show 2 * Real.pi * (p - (k : ℝ)) = 2 * Real.pi * p + ((-k : ℤ) : ℝ) * (2 * Real.pi) by
    push_cast; ring]
  rw [show -(2 * Real.pi * p + ((-k : ℤ) : ℝ) * (2 * Real.pi)) =
      -(2 * Real.pi * p) + ((k : ℤ) : ℝ) * (2 * Real.pi) by push_cast; ring]
  rw [expI_add_int_two_pi, expI_add_int_two_pi]

theorem XYmat_shift_turn (t p : ℝ) (k : ℤ) :
    XYmat (t - k) p = ((Real.cos ((k : ℝ) * Real.pi) : ℝ) : ℂ) • XYmat t p := by
  have hc : Real.cos (Real.pi * (t - (k : ℝ))) =
      Real.cos ((k : ℝ) * Real.pi) * Real.cos (Real.pi * t) := by
    rw [show Real.pi * (t - (k : ℝ)) = Real.pi * t - (k : ℝ) * Real.pi by ring, Real.cos_sub,
      Real.sin_int_mul_pi]
    ring
  have hs : Real.sin (Real.pi * (t - (k : ℝ))) =
      Real.cos ((k : ℝ) * Real.pi) * Real.sin (Real.pi * t) := by
    rw [show Real.pi * (t - (k : ℝ)) = Real.pi * t - (k : ℝ) * Real.pi by ring, Real.sin_sub,
      Real.sin_int_mul_pi]
    ring
  unfold XYmat
  rw [hc, hs]
  ext i j
  fin_cases i <;> fin_cases j <;>
    simp [Matrix.smul_apply, smul_eq_mul] <;> push_cast <;> ring

theorem Zmat_XYmat_eq_PRP (pre rot post : ℝ) :
    Zmat ((post + pre) / (2 * Real.pi)) *
      XYmat (2 * rot / (2 * Real.pi)) (1/4 - pre / (2 * Real.pi)) =
      phase_matrix post * (rotation_matrix rot * phase_matrix pre) := by
  have hpi := Real.pi_ne_zero
  have e1 : Real.pi * (2 * rot / (2 * Real.pi)) = rot := by
    field_simp
    ring
  have e2 : 2 * Real.pi * (1/4 - pre / (2 * Real.pi)) = Real.pi / 2 - pre := by
    field_simp
    ring
  have e3 : 2 * Real.pi * ((post + pre) / (2 * Real.pi)) = post + pre := by
    field_simp
  have ha : expI (-(Real.pi / 2 - pre)) = -Complex.I * expI pre := by
    rw [show -(Real.pi / 2 - pre) = -(Real.pi / 2) + pre by ring, expI_add,
      expI_neg_pi_div_two]
  have hb : expI (Real.pi / 2 - pre) = Complex.I * expI (-pre) := by
    rw [show Real.pi / 2 - pre = Real.pi / 2 + -pre by ring, expI_add, expI_pi_div_two]
  have hc : expI (post + pre) = expI post * expI pre := expI_add post pre
  have hd := expI_mul_expI_neg pre
  have hI := Complex.I_mul_I
  unfold Zmat XYmat
  rw [e1, e2, e3, ha, hb, hc]
  ext i j
  fin_cases i <;> fin_cases j
  · simp [Matrix.mul_apply, Fin.sum_univ_two, phase_matrix, rotation_matrix]
  · simp [Matrix.mul_apply, Fin.sum_univ_two, phase_matrix, rotation_matrix]
    linear_combination (Complex.sin (rot : ℂ) * expI pre) * hI
  · simp [Matrix.mul_apply, Fin.sum_univ_two, phase_matrix, rotation_matrix]
    linear_combination (-(expI post * expI pre * Complex.sin (rot : ℂ) * expI (-pre))) * hI +
      (expI post * Complex.sin (rot : ℂ)) * hd
  · simp [Matrix.mul_apply, Fin.sum_univ_two, phase_matrix, rotation_matrix]
    ring

theorem XYmat_absorb (zt xp : ℝ) :
    XYmat (1/2) (xp + zt / 2) = (-expI (-(Real.pi * zt))) • (Zmat zt * XYmat (-(1/2)) xp) := by
  have h1 : Real.pi * (1/2) = Real.pi / 2 := by ring
  have h2 : Real.pi * (-(1/2)) = -(Real.pi / 2) := by ring
  have h3 : 2 * Real.pi * (xp + zt / 2) = 2 * Real.pi * xp + Real.pi * zt := by ring
  have ha : expI (-(2 * Real.pi * xp + Real.pi * zt)) =
      expI (-(2 * Real.pi * xp)) * expI (-(Real.pi * zt)) := by
    rw [show -(2 * Real.pi * xp + Real.pi * zt) = -(2 * Real.pi * xp) + -(Real.pi * zt) by ring,
      expI_add]
  have hb : expI (2 * Real.pi * xp + Real.pi * zt) =
      expI (2 * Real.pi * xp) * expI (Real.pi * zt) := by
    rw [← expI_add]
  have hcan : expI (-(Real.pi * zt)) * expI (2 * Real.pi * zt) =
      expI (Real.pi * zt) := by
    rw [← expI_add]
    congr 1
    ring
  unfold XYmat Zmat
  rw [h1, h2, h3, ha, hb, Real.cos_pi_div_two, Real.sin_pi_div_two, Real.cos_neg,
    Real.sin_neg, Real.cos_pi_div_two, Real.sin_pi_div_two]
  ext i j
  fin_cases i <;> fin_cases j
  · simp [Matrix.mul_apply, Fin.sum_univ_two, Matrix.smul_apply, smul_eq_mul]
  · simp [Matrix.mul_apply, Fin.sum_univ_two, Matrix.smul_apply, smul_eq_mul]
    ring
  · simp [Matrix.mul_apply, Fin.sum_univ_two, Matrix.smul_apply, smul_eq_mul]
    linear_combination (-Complex.I * expI (2 * Real.pi * xp)) * hcan
  · simp [Matrix.mul_apply, Fin.sum_univ_two, Matrix.smul_apply, smul_eq_mul]

/-! The ZYZ deconstruction reconstructs the input up to a global phase. -/

theorem rotation_cancels {a c : ℂ} (hcol : Complex.abs a ^ 2 + Complex.abs c ^ 2 = 1) :
    ((-Real.sin (atan2 (Complex.abs c) (Complex.abs a)) : ℝ) : ℂ) * a +
      ((Real.cos (atan2 (Complex.abs c) (Complex.abs a)) : ℝ) : ℂ) *
        (expI (-Complex.arg (c * conj a)) * c) = 0 := by
  by_cases hc : c = 0
  · subst hc
    rw [map_zero, atan2_zero_nonneg (Complex.abs.nonneg a), Real.sin_zero]
    simp
  by_cases ha : a = 0
  · subst ha
    rw [map_zero, atan2_pos_zero (Complex.abs.pos hc), Real.cos_pi_div_two]
    simp
  have hzne : ((Complex.abs a : ℂ) + (Complex.abs c : ℂ) * Complex.I) ≠ 0 := by
    intro h
    have hre := congrArg Complex.re h
    simp at hre
    exact ha (by simpa using hre)
  have habsz : Complex.abs ((Complex.abs a : ℂ) + (Complex.abs c : ℂ) * Complex.I) = 1 := by
    rw [Complex.abs_apply, Complex.normSq_add_mul_I, hcol, Real.sqrt_one]
  have hcos : Real.cos (atan2 (Complex.abs c) (Complex.abs a)) = Complex.abs a := by
    unfold atan2
    rw [Complex.cos_arg hzne, habsz]
    simp
  have hsin : Real.sin (atan2 (Complex.abs c) (Complex.abs a)) = Complex.abs c := by
    unfold atan2
    rw [Complex.sin_arg, habsz]
    simp
  rw [Complex.ofReal_neg, hsin, hcos]
  have hconjne : conj a ≠ 0 := by
    simp only [ne_eq, map_eq_zero]
    exact ha
  have hwne : c * conj a ≠ 0 := mul_ne_zero hc hconjne
  have hexp2 : expI (-Complex.arg (c * conj a)) * (c * conj a) =
      ((Complex.abs (c * conj a) : ℝ) : ℂ) := by
    have h3 := Complex.abs_mul_exp_arg_mul_I (c * conj a)
    calc expI (-Complex.arg (c * conj a)) * (c * conj a)
        = expI (-Complex.arg (c * conj a)) *
            (((Complex.abs (c * conj a) : ℝ) : ℂ) *
              Complex.exp ((Complex.arg (c * conj a) : ℂ) * Complex.I)) := by rw [h3]
      _ = ((Complex.abs (c * conj a) : ℝ) : ℂ) *
            (expI (Complex.arg (c * conj a)) * expI (-Complex.arg (c * conj a))) := by
          unfold expI
          ring
      _ = ((Complex.abs (c * conj a) : ℝ) : ℂ) := by rw [expI_mul_expI_neg, mul_one]
  have hconj : a * conj a = ((Complex.abs a ^ 2 : ℝ) : ℂ) := by
    rw [mul_comm]
    exact conj_mul_self a
  have hmul : (-(((Complex.abs c : ℝ) : ℂ)) * a +
      ((Complex.abs a : ℝ) : ℂ) * (expI (-Complex.arg (c * conj a)) * c)) * conj a = 0 := by
    calc (-(((Complex.abs c : ℝ) : ℂ)) * a +
        ((Complex.abs a : ℝ) : ℂ) * (expI (-Complex.arg (c * conj a)) * c)) * conj a
        = -(((Complex.abs c : ℝ) : ℂ)) * (a * conj a) +
            ((Complex.abs a : ℝ) : ℂ) *
              (expI (-Complex.arg (c * conj a)) * (c * conj a)) := by ring
      _ = -(((Complex.abs c : ℝ) : ℂ)) * ((Complex.abs a ^ 2 : ℝ) : ℂ) +
            ((Complex.abs a : ℝ) : ℂ) * ((Complex.abs (c * conj a) : ℝ) : ℂ) := by
          rw [hconj, hexp2]
      _ = 0 := by
          rw [show Complex.abs (c * conj a) = Complex.abs c * Complex.abs a from by
            rw [map_mul, Complex.abs_conj]]
          push_cast
          ring
  exact mul_right_cancel₀ hconjne (hmul.trans (zero_mul (conj a)).symm)

theorem mat3_lower_zero (mat : Mat2)
    (hcol : Complex.abs (mat 0 0) ^ 2 + Complex.abs (mat 1 0) ^ 2 = 1) :
    mat3_of mat 1 0 = 0 := by
  unfold mat3_of
  rw [rotation_mul_apply_10, phase_mul_apply_00, mul_phase_apply_00, phase_mul_apply_10,
    mul_phase_apply_10, Real.sin_neg, Real.cos_neg]
  exact rotation_cancels hcol

theorem mat3_unitary (mat : Mat2) (hu : mat.conjTranspose * mat = 1) :
    (mat3_of mat).conjTranspose * mat3_of mat = 1 := by
  unfold mat3_of
  exact mat2_unitary_mul (rotation_matrix_unitary _)
    (mat2_unitary_mul (phase_matrix_unitary _) (mat2_unitary_mul hu (phase_matrix_unitary _)))

theorem sandwich_inversion (M : Mat2) (α β γ : ℝ) :
    phase_matrix β * (rotation_matrix α *
      ((rotation_matrix (-α) * (phase_matrix (-β) * (M * phase_matrix (-γ)))) *
        phase_matrix γ)) = M := by
  rw [Matrix.mul_assoc (rotation_matrix (-α)), Matrix.mul_assoc (phase_matrix (-β)),
    Matrix.mul_assoc M, phase_matrix_add, show -γ + γ = 0 by ring, phase_matrix_zero,
    Matrix.mul_one, ← Matrix.mul_assoc (rotation_matrix α), rotation_matrix_add,
    show α + -α = 0 by ring, rotation_matrix_zero, Matrix.one_mul,
    ← Matrix.mul_assoc (phase_matrix β), phase_matrix_add, show β + -β = 0 by ring,
    phase_matrix_zero, Matrix.one_mul]

theorem mat3_recompose (mat : Mat2) :
    phase_matrix (Complex.arg (mat 1 0 * conj (mat 0 0))) *
      (rotation_matrix (atan2 (Complex.abs (mat 1 0)) (Complex.abs (mat 0 0))) *
        (mat3_of mat * phase_matrix (Complex.arg (mat 0 1 * conj (mat 0 0)) + Real.pi))) =
      mat := by
  unfold mat3_of
  exact sandwich_inversion mat (atan2 (Complex.abs (mat 1 0)) (Complex.abs (mat 0 0)))
    (Complex.arg (mat 1 0 * conj (mat 0 0)))
    (Complex.arg (mat 0 1 * conj (mat 0 0)) + Real.pi)

theorem mat3_is_diagonal_phase (mat : Mat2) (hu : mat.conjTranspose * mat = 1) :
    Complex.abs (mat3_of mat 0 0) = 1 ∧
    mat3_of mat = mat3_of mat 0 0 •
      phase_matrix (Complex.arg (mat3_of mat 1 1 * conj (mat3_of mat 0 0))) := by
  have hm10 := mat3_lower_zero mat (unitary_first_column hu)
  obtain ⟨h00, h01, h11⟩ := unitary_lower_zero_diag (mat3_unitary mat hu) hm10
  refine ⟨h00, ?_⟩
  have habsw : Complex.abs (mat3_of mat 1 1 * conj (mat3_of mat 0 0)) = 1 := by
    rw [map_mul, Complex.abs_conj, h00, h11]
    norm_num
  have hwne : mat3_of mat 1 1 * conj (mat3_of mat 0 0) ≠ 0 := by
    intro h
    rw [h] at habsw
    simp at habsw
  have hexp : expI (Complex.arg (mat3_of mat 1 1 * conj (mat3_of mat 0 0))) =
      mat3_of mat 1 1 * conj (mat3_of mat 0 0) := by
    rw [expI_arg hwne, habsw]
    simp
  have hfact : mat3_of mat 0 0 * conj (mat3_of mat 0 0) = 1 := by
    rw [mul_comm, conj_mul_self, h00]
    norm_num
  ext i j
  fin_cases i <;> fin_cases j
  · show mat3_of mat 0 0 = (mat3_of mat 0 0 •
      phase_matrix (Complex.arg (mat3_of mat 1 1 * conj (mat3_of mat 0 0)))) 0 0
    rw [Matrix.smul_apply, phase_matrix_apply_00, smul_eq_mul, mul_one]
  · show mat3_of mat 0 1 = (mat3_of mat 0 0 •
      phase_matrix (Complex.arg (mat3_of mat 1 1 * conj (mat3_of mat 0 0)))) 0 1
    rw [Matrix.smul_apply, phase_matrix_apply_01, smul_eq_mul, mul_zero, h01]
  · show mat3_of mat 1 0 = (mat3_of mat 0 0 •
      phase_matrix (Complex.arg (mat3_of mat 1 1 * conj (mat3_of mat 0 0)))) 1 0
    rw [Matrix.smul_apply, phase_matrix_apply_10, smul_eq_mul, mul_zero, hm10]
  · show mat3_of mat 1 1 = (mat3_of mat 0 0 •
      phase_matrix (Complex.arg (mat3_of mat 1 1 * conj (mat3_of mat 0 0)))) 1 1
    rw [Matrix.smul_apply, phase_matrix_apply_11, smul_eq_mul, hexp]
    linear_combination (-(mat3_of mat 1 1)) * hfact

theorem recompose_smul (mat M3 : Mat2) (u : ℂ) (b r p d : ℝ)
    (h1 : phase_matrix b * (rotation_matrix r * (M3 * phase_matrix p)) = mat)
    (h2 : M3 = u • phase_matrix d) :
    mat = u • (phase_matrix b * (rotation_matrix r * phase_matrix (p + d))) := by
  rw [← h1, h2, Matrix.smul_mul, Matrix.mul_smul, Matrix.mul_smul, phase_matrix_add,
    add_comm d p]

/-- The angle deconstruction is exact: every unitary input is reconstructed, up to a
unit-magnitude global phase, as phase–rotation–phase with the returned angles. -/
theorem zyz_reconstruct (mat : Mat2) (hu : mat.conjTranspose * mat = 1)
    (pre rot post : ℝ)
    (hang : deconstruct_single_qubit_matrix_into_angles mat = (pre, rot, post)) :
    ∃ u : ℂ, Complex.abs u = 1 ∧
      mat = u • (phase_matrix post * (rotation_matrix rot * phase_matrix pre)) := by
  have h2 := (deconstruct_angles_unfold mat).symm.trans hang
  rw [Prod.mk.injEq, Prod.mk.injEq] at h2
  obtain ⟨hpre, hrot, hpost⟩ := h2
  subst hpre
  subst hrot
  subst hpost
  obtain ⟨h00, hdiag⟩ := mat3_is_diagonal_phase mat hu
  exact ⟨mat3_of mat 0 0, h00,
    recompose_smul mat (mat3_of mat) (mat3_of mat 0 0) _ _ _ _ (mat3_recompose mat) hdiag⟩

/-- The matrix of the gate list produced at tolerance `0` equals, up to a unit
phase, the product `Zmat(total_z_turn) * XYmat(xy_turn, xy_phase_turn)` of the two
candidate gates: elided gates are whole-turn identities and the half-turn
absorption changes the matrix only by a unit phase. -/
theorem single_qubit_zero_gates_matrix (mat : Mat2) (xt xp zt : ℝ)
    (h : deconstruct_single_qubit_matrix_into_gate_turns mat = (xt, xp, zt)) :
    ∃ ρ : ℂ, Complex.abs ρ = 1 ∧
      gates_matrix (single_qubit_matrix_to_native_gates mat 0) =
        ρ • (Zmat zt * XYmat xt xp) := by
  obtain ⟨hx1, hx2, hp1, hp2, hz1, hz2⟩ := turns_in_range mat
  rw [h] at hx1 hx2 hp1 hp2 hz1 hz2
  dsimp only at hx1 hx2 hp1 hp2 hz1 hz2
  have htdbx : trace_distance_bound (XYGate xt xp) = Real.pi * |xt| :=
    tdb_XY_canonical xt xp hx1 hx2
  have htdbz : trace_distance_bound (ZGate zt) = Real.pi * |zt| :=
    tdb_Z_canonical zt hz1 hz2
  have hpi := Real.pi_pos
  by_cases hxz : xt = 0
  · by_cases hzz : zt = 0
    · refine ⟨1, by simp, ?_⟩
      rw [single_qubit_case_drop_both mat 0 xt xp zt h (by rw [htdbx, hxz]; simp)
        (by rw [htdbz, hzz]; simp)]
      rw [gates_matrix_nil, hxz, hzz, Zmat_zero, XYmat_zero_turn, Matrix.one_mul, one_smul]
    · refine ⟨1, by simp, ?_⟩
      rw [single_qubit_case_drop_xy mat 0 xt xp zt h (by rw [htdbx, hxz]; simp)
        (by rw [htdbz]; exact mul_pos hpi (abs_pos.mpr hzz))]
      rw [gates_matrix_singleton, gate_matrix_ZGate, hxz, XYmat_zero_turn, Matrix.mul_one,
        one_smul]
  · by_cases hzz : zt = 0
    · refine ⟨1, by simp, ?_⟩
      rw [single_qubit_case_drop_z mat 0 xt xp zt h
        (by rw [htdbx]; exact mul_pos hpi (abs_pos.mpr hxz)) (by rw [htdbz, hzz]; simp)]
      rw [gates_matrix_singleton, gate_matrix_XYGate, hzz, Zmat_zero, Matrix.one_mul,
        one_smul]
    · by_cases habs : 1/2 - 0 ≤ |xt|
      · have hxt : xt = -(1/2) := by
          rcases abs_cases xt with ⟨he, hge⟩ | ⟨he, hlt⟩
          · rw [he] at habs
            linarith
          · rw [he] at habs
            linarith
        refine ⟨-expI (-(Real.pi * zt)), by
          rw [← neg_one_mul, map_mul, abs_expI, mul_one]
          simp, ?_⟩
        rw [single_qubit_case_absorb mat 0 xt xp zt h
          (by rw [htdbx]; exact mul_pos hpi (abs_pos.mpr hxz))
          (by rw [htdbz]; exact mul_pos hpi (abs_pos.mpr hzz)) habs]
        rw [gates_matrix_singleton, gate_matrix_XYGate, hxt]
        exact XYmat_absorb zt xp
      · refine ⟨1, by simp, ?_⟩
        rw [single_qubit_case_both mat 0 xt xp zt h
          (by rw [htdbx]; exact mul_pos hpi (abs_pos.mpr hxz))
          (by rw [htdbz]; exact mul_pos hpi (abs_pos.mpr hzz)) (not_le.mp habs)]
        rw [gates_matrix_pair, gate_matrix_XYGate, gate_matrix_ZGate, one_smul]

/-- The canonicalized turn triple reproduces phase–rotation–phase up to a unit
phase: the `signed_mod_1` shifts contribute only signs, and the exact identity
`Zmat * XYmat = P(post) * R(rot) * P(pre)` holds for the raw turn values. -/
theorem turns_matrix_reconstruct (pre rot post : ℝ) :
    ∃ s : ℂ, Complex.abs s = 1 ∧
      Zmat (signed_mod_1 ((post + pre) / (2 * Real.pi))) *
        XYmat (signed_mod_1 (2 * rot / (2 * Real.pi)))
          (signed_mod_1 (1/4 - pre / (2 * Real.pi))) =
        s • (phase_matrix post * (rotation_matrix rot * phase_matrix pre)) := by
  obtain ⟨k1, hk1⟩ := smod_sub_int ((post + pre) / (2 * Real.pi))
  obtain ⟨k2, hk2⟩ := smod_sub_int (2 * rot / (2 * Real.pi))
  obtain ⟨k3, hk3⟩ := smod_sub_int (1/4 - pre / (2 * Real.pi))
  rw [hk1, hk2, hk3, Zmat_shift, XYmat_shift_phase, XYmat_shift_turn, Matrix.mul_smul,
    Zmat_XYmat_eq_PRP]
  refine ⟨((Real.cos ((k2 : ℝ) * Real.pi) : ℝ) : ℂ), ?_, rfl⟩
  rw [Complex.abs_ofReal]
  exact abs_cos_int_pi k2

/-- C1: for every 2x2 unitary matrix `M`, the gate sequence returned by
`single_qubit_matrix_to_native_gates` with tolerance `0`, multiplied in
application order, equals `M` up to a unit-magnitude global phase factor (the
claim's floating-point error is zero in the exact real embedding). -/
theorem single_qubit_gates_reconstruct (mat : Mat2)
    (hu : mat.conjTranspose * mat = 1) :
    ∃ c : ℂ, Complex.abs c = 1 ∧
      gates_matrix (single_qubit_matrix_to_native_gates mat 0) = c • mat := by
  have hang : deconstruct_single_qubit_matrix_into_angles mat =
      ((deconstruct_single_qubit_matrix_into_angles mat).1,
       (deconstruct_single_qubit_matrix_into_angles mat).2.1,
       (deconstruct_single_qubit_matrix_into_angles mat).2.2) := rfl
  obtain ⟨u, hu1, hu2⟩ := zyz_reconstruct mat hu _ _ _ hang
  have hturns := deconstruct_turns_eq mat _ _ _ hang
  obtain ⟨ρ, hρ1, hρ2⟩ := single_qubit_zero_gates_matrix mat _ _ _ hturns
  obtain ⟨s, hs1, hs2⟩ := turns_matrix_reconstruct
    (deconstruct_single_qubit_matrix_into_angles mat).1
    (deconstruct_single_qubit_matrix_into_angles mat).2.1
    (deconstruct_single_qubit_matrix_into_angles mat).2.2
  rw [hs2] at hρ2
  have hune : u ≠ 0 := by
    intro hz
    rw [hz] at hu1
    simp at hu1
  have hPRP : phase_matrix (deconstruct_single_qubit_matrix_into_angles mat).2.2 *
      (rotation_matrix (deconstruct_single_qubit_matrix_into_angles mat).2.1 *
        phase_matrix (deconstruct_single_qubit_matrix_into_angles mat).1) = u⁻¹ • mat := by
    conv_rhs => rw [hu2]
    rw [smul_smul, inv_mul_cancel₀ hune, one_smul]
  rw [hPRP, smul_smul, smul_smul] at hρ2
  refine ⟨ρ * s * u⁻¹, ?_, hρ2⟩
  rw [map_mul, map_mul, map_inv₀, hρ1, hs1, hu1]
  norm_num

/-- Witness for C1: the bit-flip matrix is unitary and its tolerance-0 synthesis
reconstructs it up to a global phase. -/
theorem single_qubit_gates_reconstruct_witness :
    (!![(0 : ℂ), 1; 1, 0] : Mat2).conjTranspose * !![(0 : ℂ), 1; 1, 0] = 1 ∧
    ∃ c : ℂ, Complex.abs c = 1 ∧
      gates_matrix (single_qubit_matrix_to_native_gates !![(0 : ℂ), 1; 1, 0] 0) =
        c • !![(0 : ℂ), 1; 1, 0] := by
  have hu : (!![(0 : ℂ), 1; 1, 0] : Mat2).conjTranspose * !![(0 : ℂ), 1; 1, 0] = 1 := by
    ext i j
    fin_cases i <;> fin_cases j <;>
      simp [Matrix.conjTranspose_apply, Matrix.mul_apply, Fin.sum_univ_two, Matrix.one_apply]
  exact ⟨hu, single_qubit_gates_reconstruct _ hu⟩

/-- C7: the canonicalization `signed_mod_1` is idempotent and its value always lies
in the half-open interval `[-0.5, 0.5)`. -/
theorem signed_mod_1_idempotent_and_range (x : ℝ) :
    signed_mod_1 (signed_mod_1 x) = signed_mod_1 x ∧
    -(1/2) ≤ signed_mod_1 x ∧ signed_mod_1 x < 1/2 :=
  ⟨signed_mod_1_eq_self (signed_mod_1_lb x) (signed_mod_1_ub x),
   signed_mod_1_lb x, signed_mod_1_ub x⟩

/-- C4: if both candidate gates survive the tolerance filter and `|xy_turn|` is at
least `0.5 - tolerance`, the result is replaced by the single half-turn gate
`XYGate(0.5, xy_phase_turn + total_z_turn/2)`; and since this is checked only
after filtering, an input whose phase gate was elided by the tolerance never
triggers the replacement — the result stays the filtered list. -/
theorem single_qubit_absorption_after_filtering (mat : Mat2) (tol xt xp zt : ℝ)
    (h : deconstruct_single_qubit_matrix_into_gate_turns mat = (xt, xp, zt)) :
    ((tol < trace_distance_bound (XYGate xt xp) ∧ tol < trace_distance_bound (ZGate zt)) ∧
        1/2 - tol ≤ |xt| →
      single_qubit_matrix_to_native_gates mat tol = [XYGate (1/2) (xp + zt / 2)]) ∧
    (trace_distance_bound (ZGate zt) ≤ tol →
      single_qubit_matrix_to_native_gates mat tol =
        if tol < trace_distance_bound (XYGate xt xp) then [XYGate xt xp] else []) := by
  constructor
  · rintro ⟨⟨h1, h2⟩, h3⟩
    exact single_qubit_case_absorb mat tol xt xp zt h h1 h2 h3
  · intro hz
    by_cases hx : tol < trace_distance_bound (XYGate xt xp)
    · rw [if_pos hx]
      exact single_qubit_case_drop_z mat tol xt xp zt h hx hz
    · rw [if_neg hx]
      exact single_qubit_case_drop_both mat tol xt xp zt h (not_lt.mp hx) hz

/-- Witness for C4: on the bit-flip matrix with tolerance `0` both gates survive,
the rotation is a half-turn, and the absorption fires; on `[[0,1],[-1,0]]` with
tolerance `1/100` the phase gate (zero turns) is elided, and despite the half-turn
rotation the result is the plain filtered single gate. -/
theorem single_qubit_absorption_after_filtering_witness :
    (single_qubit_matrix_to_native_gates !![(0 : ℂ), 1; 1, 0] 0 =
      [XYGate (1/2) (-(1/4) + -(1/2) / 2)]) ∧
    (trace_distance_bound (ZGate 0) ≤ 1/100 ∧
      single_qubit_matrix_to_native_gates !![(0 : ℂ), 1; -1, 0] (1/100) =
        [XYGate (-(1/2)) (1/4)]) := by
  have hpi3 := Real.pi_gt_three
  have hXYh : trace_distance_bound (XYGate (-(1/2)) (-(1/4))) = Real.pi * (1/2) := by
    rw [tdb_XY_canonical _ _ (by norm_num) (by norm_num)]
    norm_num
  have hZh : trace_distance_bound (ZGate (-(1/2))) = Real.pi * (1/2) := by
    rw [tdb_Z_canonical _ (by norm_num) (by norm_num)]
    norm_num
  constructor
  · exact (single_qubit_absorption_after_filtering _ 0 _ _ _ turns_X).1
      ⟨⟨by rw [hXYh]; nlinarith, by rw [hZh]; nlinarith⟩, by rw [abs_neg, abs_of_nonneg (show (0:ℝ) ≤ 1/2 by norm_num)]; norm_num⟩
  · have hZ0 : trace_distance_bound (ZGate 0) ≤ 1/100 := by
      rw [tdb_Z_canonical _ (by norm_num) (by norm_num)]
      norm_num
    refine ⟨hZ0, ?_⟩
    have h2 := (single_qubit_absorption_after_filtering _ (1/100) _ _ _ turns_R).2 hZ0
    have hXYR : trace_distance_bound (XYGate (-(1/2)) (1/4)) = Real.pi * (1/2) := by
      rw [tdb_XY_canonical _ _ (by norm_num) (by norm_num)]
      norm_num
    rw [if_pos (by rw [hXYR]; nlinarith)] at h2
    exact h2

/-- C5 counterexample: on `diag(1, i)` with tolerance `π/4` the candidate phase
gate `ZGate(1/4)` has trace distance bound exactly equal to the tolerance, yet the
result is empty — the gate is dropped, not kept (the filter keeps only bounds
strictly greater than the tolerance). -/
theorem tolerance_boundary_counterexample :
    trace_distance_bound (ZGate (1/4)) = Real.pi / 4 ∧
    deconstruct_single_qubit_matrix_into_gate_turns !![(1 : ℂ), 0; 0, Complex.I] =
      (0, 0, 1/4) ∧
    single_qubit_matrix_to_native_gates !![(1 : ℂ), 0; 0, Complex.I] (Real.pi / 4) = [] := by
  have hpi := Real.pi_pos
  have hZ : trace_distance_bound (ZGate (1/4)) = Real.pi / 4 := by
    rw [tdb_Z_canonical _ (by norm_num) (by norm_num)]
    rw [show |(1/4 : ℝ)| = 1/4 by norm_num]
    ring
  refine ⟨hZ, turns_DI, ?_⟩
  apply single_qubit_case_drop_both _ _ 0 0 (1/4) turns_DI
  · rw [tdb_XY_canonical _ _ (by norm_num) (by norm_num)]
    simp
    positivity
  · rw [hZ]

/-- C5 (amended): in `single_qubit_matrix_to_native_gates` a gate whose
`trace_distance_bound()` equals the tolerance is dropped — the filter keeps only
gates with bound strictly greater — while in `controlled_op_to_native_gates` a
`|z_phase - 1|` exactly equal to the tolerance is treated as identity and the
empty sequence is returned. -/
theorem tolerance_boundary_directions :
    (∀ (mat : Mat2) (tol xt xp zt : ℝ),
      deconstruct_single_qubit_matrix_into_gate_turns mat = (xt, xp, zt) →
      (trace_distance_bound (XYGate xt xp) = tol →
        XYGate xt xp ∉ single_qubit_matrix_to_native_gates mat tol) ∧
      (trace_distance_bound (ZGate zt) = tol →
        ZGate zt ∉ single_qubit_matrix_to_native_gates mat tol)) ∧
    (∀ (Q : Type) (eig : EigFn) (control target : Q) (operation : Mat2) (tol : ℝ),
      Complex.abs ((single_qubit_op_to_framed_phase_form eig operation).2.1 - 1) = tol →
      controlled_op_to_native_gates eig control target operation tol = []) := by
  constructor
  · intro mat tol xt xp zt h
    constructor
    · intro hx
      have hxle : trace_distance_bound (XYGate xt xp) ≤ tol := le_of_eq hx
      by_cases hzb : tol < trace_distance_bound (ZGate zt)
      · rw [single_qubit_case_drop_xy mat tol xt xp zt h hxle hzb]
        simp
      · rw [single_qubit_case_drop_both mat tol xt xp zt h hxle (not_lt.mp hzb)]
        simp
    · intro hz
      have hzle : trace_distance_bound (ZGate zt) ≤ tol := le_of_eq hz
      by_cases hx : tol < trace_distance_bound (XYGate xt xp)
      · rw [single_qubit_case_drop_z mat tol xt xp zt h hx hzle]
        simp
      · rw [single_qubit_case_drop_both mat tol xt xp zt h (not_lt.mp hx) hzle]
        simp
  · intro Q eig control target operation tol habs
    unfold controlled_op_to_native_gates
    rw [if_pos (le_of_eq habs)]

/-- Witness for C5 (amended): the `XYGate(-1/2, 1/4)` candidate of `[[0,1],[-1,0]]`
has bound exactly `π/2` and is absent from the synthesis at tolerance `π/2`; the
`ZGate(1/4)` candidate of `diag(1, i)` has bound exactly `π/4` and is absent from
the synthesis at tolerance `π/4`; and a framed phase form with `z_phase = 1` at
tolerance `0` satisfies `|z_phase - 1| = 0` and yields the empty controlled-op
sequence. -/
theorem tolerance_boundary_directions_witness :
    (trace_distance_bound (XYGate (-(1/2)) (1/4)) = Real.pi / 2 ∧
      XYGate (-(1/2)) (1/4) ∉
        single_qubit_matrix_to_native_gates !![(0 : ℂ), 1; -1, 0] (Real.pi / 2)) ∧
    (trace_distance_bound (ZGate (1/4)) = Real.pi / 4 ∧
      ZGate (1/4) ∉
        single_qubit_matrix_to_native_gates !![(1 : ℂ), 0; 0, Complex.I] (Real.pi / 4)) ∧
    (Complex.abs ((single_qubit_op_to_framed_phase_form trivialEig 1).2.1 - 1) = 0 ∧
      controlled_op_to_native_gates trivialEig true false (1 : Mat2) 0 = []) := by
  have hXY : trace_distance_bound (XYGate (-(1/2)) (1/4)) = Real.pi / 2 := by
    rw [tdb_XY_canonical _ _ (by norm_num) (by norm_num)]
    rw [show |(-(1/2) : ℝ)| = 1/2 by norm_num]
    ring
  have hZ : trace_distance_bound (ZGate (1/4)) = Real.pi / 4 := by
    rw [tdb_Z_canonical _ (by norm_num) (by norm_num)]
    rw [show |(1/4 : ℝ)| = 1/4 by norm_num]
    ring
  have habs : Complex.abs ((single_qubit_op_to_framed_phase_form trivialEig 1).2.1 - 1) = 0 := by
    simp [single_qubit_op_to_framed_phase_form, trivialEig]
  exact ⟨⟨hXY, (tolerance_boundary_directions.1 _ (Real.pi / 2) (-(1/2)) (1/4) 0 turns_R).1 hXY⟩,
    ⟨hZ, (tolerance_boundary_directions.1 _ (Real.pi / 4) 0 0 (1/4) turns_DI).2 hZ⟩,
    ⟨habs, tolerance_boundary_directions.2 Bool trivialEig true false 1 0 habs⟩⟩

/-- C6 counterexample: at tolerance exactly `0` on the identity matrix, both
candidate gates (whose turns are `0`, hence bound `0`) are dropped by the filter
`bound > tolerance`, so elision does happen for a tolerance that is ≤ 0. -/
theorem no_elision_counterexample :
    deconstruct_single_qubit_matrix_into_gate_turns (1 : Mat2) = (0, 1/4, 0) ∧
    (0 : ℝ) ≤ 0 ∧
    single_qubit_matrix_to_native_gates (1 : Mat2) 0 = [] :=
  ⟨turns_one, le_refl 0, single_qubit_identity_tol_zero⟩

/-- C6 (amended): for every strictly negative tolerance no elision happens — both
candidate gates are kept (and the half-turn absorption cannot fire either, since
`|xy_turn| ≤ 1/2 < 1/2 - tolerance`), so the result is exactly the two-gate
candidate list. -/
theorem single_qubit_no_elision_neg_tolerance (mat : Mat2) (tol : ℝ) (htol : tol < 0) :
    single_qubit_matrix_to_native_gates mat tol =
      [XYGate (deconstruct_single_qubit_matrix_into_gate_turns mat).1
         (deconstruct_single_qubit_matrix_into_gate_turns mat).2.1,
       ZGate (deconstruct_single_qubit_matrix_into_gate_turns mat).2.2] := by
  obtain ⟨hx1, hx2, hp1, hp2, hz1, hz2⟩ := turns_in_range mat
  have h : deconstruct_single_qubit_matrix_into_gate_turns mat =
      ((deconstruct_single_qubit_matrix_into_gate_turns mat).1,
       (deconstruct_single_qubit_matrix_into_gate_turns mat).2.1,
       (deconstruct_single_qubit_matrix_into_gate_turns mat).2.2) := rfl
  apply single_qubit_case_both mat tol _ _ _ h
  · calc tol < 0 := htol
      _ ≤ trace_distance_bound
            (XYGate (deconstruct_single_qubit_matrix_into_gate_turns mat).1
              (deconstruct_single_qubit_matrix_into_gate_turns mat).2.1) := by
          rw [tdb_XYGate]
          positivity
  · calc tol < 0 := htol
      _ ≤ trace_distance_bound
            (ZGate (deconstruct_single_qubit_matrix_into_gate_turns mat).2.2) := by
          rw [tdb_ZGate]
          positivity
  · have habs : |(deconstruct_single_qubit_matrix_into_gate_turns mat).1| ≤ 1/2 :=
      abs_le.mpr ⟨hx1, le_of_lt hx2⟩
    linarith

/-- Witness for C6 (amended): the identity matrix at tolerance `-1` keeps both
candidate gates. -/
theorem single_qubit_no_elision_neg_tolerance_witness :
    (-1 : ℝ) < 0 ∧
    single_qubit_matrix_to_native_gates (1 : Mat2) (-1) = [XYGate 0 (1/4), ZGate 0] := by
  refine ⟨by norm_num, ?_⟩
  have h := single_qubit_no_elision_neg_tolerance (1 : Mat2) (-1) (by norm_num)
  rw [turns_one] at h
  simpa using h

/-- Evaluation of the synthesizer on the bit-flip matrix at tolerance `1e-8`. -/
theorem bit_flip_result :
    single_qubit_matrix_to_native_gates !![(0 : ℂ), 1; 1, 0] (1/10^8) =
      [XYGate (1/2) (-(1/2))] := by
  have hpi3 := Real.pi_gt_three
  have h := single_qubit_case_absorb !![(0 : ℂ), 1; 1, 0] (1/10^8) (-(1/2)) (-(1/4))
    (-(1/2)) turns_X
    (by rw [tdb_XY_canonical _ _ (by norm_num) (by norm_num)]; rw [show |(-(1/2) : ℝ)| = 1/2 by norm_num]; nlinarith)
    (by rw [tdb_Z_canonical _ (by norm_num) (by norm_num)]; rw [show |(-(1/2) : ℝ)| = 1/2 by norm_num]; nlinarith)
    (by rw [abs_neg, abs_of_nonneg (show (0:ℝ) ≤ 1/2 by norm_num)]; norm_num)
  rw [show (-(1/4) + -(1/2) / 2 : ℝ) = -(1/2) by norm_num] at h
  exact h

/-- C8 counterexample: on the bit-flip `[[0,1],[1,0]]` with tolerance `1e-8` the
synthesizer does return a single gate with `turns = 0.5`, but its
`axis_phase_turns` is `-1/2`, which is not `0` up to sign or an integer (mod-1)
shift. -/
theorem bit_flip_counterexample :
    single_qubit_matrix_to_native_gates !![(0 : ℂ), 1; 1, 0] (1/10^8) =
      [XYGate (1/2) (-(1/2))] ∧
    ∀ k : ℤ, (-(1/2) : ℝ) ≠ (k : ℝ) := by
  refine ⟨bit_flip_result, ?_⟩
  intro k hk
  have h2 : ((2 * k : ℤ) : ℝ) = -1 := by
    push_cast
    linarith
  have h3 : (2 * k : ℤ) = -1 := by exact_mod_cast h2
  omega

/-- C8 (amended): on the bit-flip with tolerance `1e-8` the result is the single
gate `XYGate(turns = 0.5, axis_phase_turns = -1/2)`, and applying that gate
reconstructs the input matrix up to a unit-magnitude global phase. -/
theorem bit_flip_single_gate :
    single_qubit_matrix_to_native_gates !![(0 : ℂ), 1; 1, 0] (1/10^8) =
      [XYGate (1/2) (-(1/2))] ∧
    ∃ c : ℂ, Complex.abs c = 1 ∧ XYmat (1/2) (-(1/2)) = c • !![(0 : ℂ), 1; 1, 0] := by
  refine ⟨bit_flip_result, Complex.I, by simp, ?_⟩
  unfold XYmat
  rw [show Real.pi * (1/2) = Real.pi / 2 by ring,
    show -(2 * Real.pi * -(1/2)) = Real.pi by ring,
    show 2 * Real.pi * -(1/2) = -Real.pi by ring,
    Real.cos_pi_div_two, Real.sin_pi_div_two, expI_pi, expI_neg_pi]
  ext i j
  fin_cases i <;> fin_cases j <;> simp

/-- C9: when the half-turn absorption fires the returned axis phase is the raw sum
`xy_phase_turn + total_z_turn/2`, not re-canonicalized; both summands lie in
`[-1/2, 1/2)` so the sum lies in `[-3/4, 3/4)`, and on the concrete input
`[[0, i], [1, 0]]` at tolerance `0` the returned phase is `-5/8`, outside the
canonical interval `[-1/2, 1/2)`. -/
theorem absorbed_axis_phase_not_recanonicalized (mat : Mat2) (tol xt xp zt : ℝ)
    (h : deconstruct_single_qubit_matrix_into_gate_turns mat = (xt, xp, zt))
    (h1 : tol < trace_distance_bound (XYGate xt xp))
    (h2 : tol < trace_distance_bound (ZGate zt))
    (h3 : 1/2 - tol ≤ |xt|) :
    single_qubit_matrix_to_native_gates mat tol = [XYGate (1/2) (xp + zt / 2)] ∧
    -(3/4) ≤ xp + zt / 2 ∧ xp + zt / 2 < 3/4 ∧
    single_qubit_matrix_to_native_gates !![(0 : ℂ), Complex.I; 1, 0] 0 =
      [XYGate (1/2) (-(5/8))] ∧
    (-(5/8) : ℝ) < -(1/2) := by
  have hpi := Real.pi_pos
  obtain ⟨_, _, hp1, hp2, hz1, hz2⟩ := turns_in_range mat
  rw [h] at hp1 hp2 hz1 hz2
  simp only at hp1 hp2 hz1 hz2
  refine ⟨single_qubit_case_absorb mat tol xt xp zt h h1 h2 h3, by linarith, by linarith,
    ?_, by norm_num⟩
  have hc := single_qubit_case_absorb !![(0 : ℂ), Complex.I; 1, 0] 0 (-(1/2)) (-(1/2))
    (-(1/4)) turns_XI
    (by rw [tdb_XY_canonical _ _ (by norm_num) (by norm_num)]; rw [show |(-(1/2) : ℝ)| = 1/2 by norm_num]; nlinarith)
    (by rw [tdb_Z_canonical _ (by norm_num) (by norm_num)]; rw [show |(-(1/4) : ℝ)| = 1/4 by norm_num]; nlinarith)
    (by rw [abs_neg, abs_of_nonneg (show (0:ℝ) ≤ 1/2 by norm_num)]; norm_num)
  rw [show (-(1/2) + -(1/4) / 2 : ℝ) = -(5/8) by norm_num] at hc
  exact hc

/-- Witness for C9: on the bit-flip matrix at tolerance `0` the absorption fires
and the returned phase is the raw sum `-1/4 + (-1/2)/2 = -1/2`, inside the
stated `[-3/4, 3/4)` range. -/
theorem absorbed_axis_phase_not_recanonicalized_witness :
    single_qubit_matrix_to_native_gates !![(0 : ℂ), 1; 1, 0] 0 =
      [XYGate (1/2) (-(1/4) + -(1/2) / 2)] ∧
    -(3/4) ≤ (-(1/4) : ℝ) + -(1/2) / 2 ∧ ((-(1/4) : ℝ) + -(1/2) / 2) < 3/4 := by
  have hpi3 := Real.pi_gt_three
  have h := absorbed_axis_phase_not_recanonicalized !![(0 : ℂ), 1; 1, 0] 0 (-(1/2)) (-(1/4))
    (-(1/2)) turns_X
    (by rw [tdb_XY_canonical _ _ (by norm_num) (by norm_num)]; rw [show |(-(1/2) : ℝ)| = 1/2 by norm_num]; nlinarith)
    (by rw [tdb_Z_canonical _ (by norm_num) (by norm_num)]; rw [show |(-(1/2) : ℝ)| = 1/2 by norm_num]; nlinarith)
    (by rw [abs_neg, abs_of_nonneg (show (0:ℝ) ≤ 1/2 by norm_num)]; norm_num)
  exact ⟨h.1, h.2.1, h.2.2.1⟩

theorem parity_interaction_eq_described {Q : Type} (q0 q1 : Q) (tolerance rads : ℝ)
    (framing : Option NativeGate) :
    parity_interaction q0 q1 tolerance rads framing =
      parity_interaction_described q0 q1 tolerance rads framing := by
  simp only [parity_interaction, parity_interaction_described]
  by_cases h : |rads| < tolerance
  · rw [if_pos h, if_pos h]
  · rw [if_neg h, if_neg h]
    rw [show rads * 4 / Real.pi = 4 * rads / Real.pi by ring,
      show -(4 * rads / Real.pi) / 2 = -2 * rads / Real.pi by ring]

/-- C2: for every pair of qubits, KAK decomposition output, and tolerance, the
two-qubit synthesizer returns exactly the flattened concatenation, in order, of
pre (`b1` on `q1` then `b0` on `q0`), the x parity interaction framed by `Y^-0.5`,
the y parity interaction framed by `X^0.5`, the z parity interaction with no
framing, then post (`a1` on `q1` then `a0` on `q0`), with `parity_interaction`
eliding `|rads| < tolerance` and otherwise emitting framing, `CZ^(4·rads/π)`,
`Z^(-2·rads/π)` on each qubit, and the framing inverse. -/
theorem two_qubit_matches_description (Q : Type) (q0 q1 : Q) (kak : KakDecomposition)
    (tolerance : ℝ) :
    two_qubit_matrix_to_native_gates q0 q1 kak tolerance =
      two_qubit_described q0 q1 kak tolerance := by
  unfold two_qubit_matrix_to_native_gates two_qubit_described do_single_on
  rw [parity_interaction_eq_described, parity_interaction_eq_described,
    parity_interaction_eq_described]
  simp [List.append_assoc]

theorem drop_trailing_z_eq_described (l : List NativeGate) :
    drop_trailing_z l = drop_trailing_z_described l := by
  induction l using List.reverseRecOn with
  | nil => rfl
  | append_singleton l' g _ =>
    unfold drop_trailing_z drop_trailing_z_described
    rw [List.getLast?_concat, List.reverse_append]
    cases g with
    | XYGate t p => simp
    | ZGate t => simp [List.dropLast_concat]
    | CZpow e => simp
    | Xpow e => simp
    | Ypow e => simp
    | Zpow e => simp

/-- C3: whenever `|z_phase - 1| > tolerance`, the controlled-op synthesizer
returns exactly the border gates of `u` on the target with a trailing `ZGate`
dropped if last, then `CZ^(phase(z_phase)/π)` on `(control, target)`, then — only
when `|global_phase - 1| > tolerance` — `Z^(phase(global_phase)/π)` on the
control, then the operation-by-operation inverse of the border operations in
reverse order. -/
theorem controlled_op_matches_description (Q : Type) (eig : EigFn) (control target : Q)
    (operation : Mat2) (tolerance : ℝ)
    (h : tolerance <
      Complex.abs ((single_qubit_op_to_framed_phase_form eig operation).2.1 - 1)) :
    controlled_op_to_native_gates eig control target operation tolerance =
      controlled_op_described eig control target operation tolerance := by
  unfold controlled_op_to_native_gates controlled_op_described
  rw [if_neg (not_le.mpr h), drop_trailing_z_eq_described]
  unfold inverse_of_invertable_op_tree
  rfl

/-- Witness for C3: the eigendecomposition instance with eigenvalues `(1, -1)` on
the identity operation gives `z_phase = -1` with `|z_phase - 1| = 2 > 0`, and the
two sides agree. -/
theorem controlled_op_matches_description_witness :
    (0 : ℝ) < Complex.abs ((single_qubit_op_to_framed_phase_form flipEig 1).2.1 - 1) ∧
    controlled_op_to_native_gates flipEig true false (1 : Mat2) 0 =
      controlled_op_described flipEig true false (1 : Mat2) 0 := by
  have habs : Complex.abs ((single_qubit_op_to_framed_phase_form flipEig 1).2.1 - 1) = 2 := by
    unfold single_qubit_op_to_framed_phase_form flipEig
    norm_num
  exact ⟨by rw [habs]; norm_num,
    controlled_op_matches_description Bool flipEig true false 1 0 (by rw [habs]; norm_num)⟩

/-- C10 counterexample: with the degenerate eigendecomposition (both eigenvalues
`1`) on the identity at tolerance `0`, the border synthesis of `u` is empty, yet
the function returns the empty list — not the coupling-gate effect — because
`|z_phase - 1| ≤ tolerance` short-circuits first. -/
theorem empty_border_counterexample :
    single_qubit_matrix_to_native_gates
        (single_qubit_op_to_framed_phase_form trivialEig 1).1 0 = [] ∧
    controlled_op_to_native_gates trivialEig true false (1 : Mat2) 0 = [] ∧
    ([] : List (Operation Bool)) ≠
      [Operation.app2
        (CZpow (Complex.arg (single_qubit_op_to_framed_phase_form trivialEig 1).2.1 /
          Real.pi)) true false] := by
  have hu : (single_qubit_op_to_framed_phase_form trivialEig 1).1 = (1 : Mat2) := by
    unfold single_qubit_op_to_framed_phase_form trivialEig
    simp
  refine ⟨by rw [hu]; exact single_qubit_identity_tol_zero, ?_, by simp⟩
  unfold controlled_op_to_native_gates
  rw [if_pos ?_]
  unfold single_qubit_op_to_framed_phase_form trivialEig
  norm_num

/-- C10 (amended): whenever `|z_phase - 1| > tolerance` and the single-qubit
synthesis of `u` is empty, the trailing-gate check is skipped harmlessly (no
indexing of an empty list is possible in the embedding) and the result is exactly
the coupling-gate effect plus, when `|global_phase - 1| > tolerance`, the
kickback on the control. -/
theorem controlled_op_empty_border (Q : Type) (eig : EigFn) (control target : Q)
    (operation : Mat2) (tolerance : ℝ)
    (hz : tolerance <
      Complex.abs ((single_qubit_op_to_framed_phase_form eig operation).2.1 - 1))
    (hu : single_qubit_matrix_to_native_gates
        (single_qubit_op_to_framed_phase_form eig operation).1 tolerance = []) :
    controlled_op_to_native_gates eig control target operation tolerance =
      [Operation.app2
        (CZpow (Complex.arg (single_qubit_op_to_framed_phase_form eig operation).2.1 /
          Real.pi)) control target] ++
      (if tolerance <
          Complex.abs ((single_qubit_op_to_framed_phase_form eig operation).2.2 - 1) then
        [Operation.app1
          (Zpow (Complex.arg (single_qubit_op_to_framed_phase_form eig operation).2.2 /
            Real.pi)) control]
      else []) := by
  unfold controlled_op_to_native_gates
  rw [if_neg (not_le.mpr hz), hu]
  unfold drop_trailing_z inverse_of_invertable_op_tree
  simp

/-- Witness for C10 (amended): the `(1, -1)` eigendecomposition instance on the
identity at tolerance `0` has empty border synthesis and `|z_phase - 1| = 2 > 0`;
the result is the single `CZ^1` effect (the kickback is skipped because the
global phase is `1`). -/
theorem controlled_op_empty_border_witness :
    (0 : ℝ) < Complex.abs ((single_qubit_op_to_framed_phase_form flipEig 1).2.1 - 1) ∧
    single_qubit_matrix_to_native_gates
      (single_qubit_op_to_framed_phase_form flipEig 1).1 0 = [] ∧
    controlled_op_to_native_gates flipEig true false (1 : Mat2) 0 =
      [Operation.app2 (CZpow 1) true false] := by
  have hu1 : (single_qubit_op_to_framed_phase_form flipEig 1).1 = (1 : Mat2) := by
    unfold single_qubit_op_to_framed_phase_form flipEig
    simp
  have habs : Complex.abs ((single_qubit_op_to_framed_phase_form flipEig 1).2.1 - 1) = 2 := by
    unfold single_qubit_op_to_framed_phase_form flipEig
    norm_num
  have hz : (0 : ℝ) <
      Complex.abs ((single_qubit_op_to_framed_phase_form flipEig 1).2.1 - 1) := by
    rw [habs]
    norm_num
  have hu : single_qubit_matrix_to_native_gates
      (single_qubit_op_to_framed_phase_form flipEig 1).1 0 = [] := by
    rw [hu1]
    exact single_qubit_identity_tol_zero
  refine ⟨hz, hu, ?_⟩
  have h := controlled_op_empty_border Bool flipEig true false 1 0 hz hu
  have harg : Complex.arg ((single_qubit_op_to_framed_phase_form flipEig 1).2.1) /
      Real.pi = 1 := by
    unfold single_qubit_op_to_framed_phase_form flipEig
    norm_num [Complex.arg_neg_one, Real.pi_ne_zero]
  have hg : Complex.abs ((single_qubit_op_to_framed_phase_form flipEig 1).2.2 - 1) = 0 := by
    unfold single_qubit_op_to_framed_phase_form flipEig
    norm_num
  rw [harg, hg] at h
  rw [if_neg (by norm_num)] at h
  simpa using h

end
